import Mathlib

/-!
Verification development for the design-token propagation engine of
`arewedesigntokensyet`.

The definitions below are a shallow embedding of `src/lib/propagationUtils.js`
(`normalizePathForOutput`, `getPropagationData`, `collectDeclarations`,
`resolveDeclarationReferences`, `computeDesignTokenSummary`,
`buildUsageAggregates`).  JavaScript plain objects used as string-keyed maps
are embedded as association lists in insertion order (keys unique, first
insertion fixes the position); object mutation becomes a pure update of the
corresponding entry.  Node's `path.relative` (an external collaborator of the
engine) is modelled on normalized absolute POSIX paths.  The resolution walk
of `resolutionUtils.js` is not present in the sources and is modelled from
the specification where indicated.
-/

namespace Awdty

/-! ## Association-list helpers (JS plain objects as string-keyed maps) -/

/-- Lookup of a key in an association list, first match wins (JS property
lookup; keys of a JS object are unique, so first = only). -/
def lookupKey {α β : Type} [DecidableEq α] : List (α × β) → α → Option β
  | [], _ => none
  | (k, v) :: rest, key => if k = key then some v else lookupKey rest key

/-- The keys of an association list, in insertion order
(`Object.keys(...)` for string-keyed objects). -/
def keysOf {α β : Type} (m : List (α × β)) : List α := m.map Prod.fst

/-- In-place mutation of the entry stored at key `k` (`obj[k].field = ...`).
Entries with other keys are untouched. -/
def mapAtKey {α β : Type} [DecidableEq α] (m : List (α × β)) (k : α) (g : β → β) :
    List (α × β) :=
  m.map (fun p => if p.1 = k then (p.1, g p.2) else p)

/-- `m[k] = (m[k] ?? 0) + 1` on a JS object used as a counter map. -/
def bumpCount (m : List (String × Nat)) (k : String) : List (String × Nat) :=
  match lookupKey m k with
  | some _ => mapAtKey m k (fun n => n + 1)
  | none => m ++ [(k, 1)]

@[simp] theorem lookupKey_nil {α β : Type} [DecidableEq α] (key : α) :
    lookupKey ([] : List (α × β)) key = none := rfl

@[simp] theorem lookupKey_cons {α β : Type} [DecidableEq α] (k : α) (v : β)
    (rest : List (α × β)) (key : α) :
    lookupKey ((k, v) :: rest) key = if k = key then some v else lookupKey rest key := rfl

theorem lookupKey_append {α β : Type} [DecidableEq α] (m₁ m₂ : List (α × β)) (key : α) :
    lookupKey (m₁ ++ m₂) key =
      match lookupKey m₁ key with
      | some v => some v
      | none => lookupKey m₂ key := by
  induction m₁ with
  | nil => simp
  | cons p rest ih =>
      obtain ⟨k, v⟩ := p
      by_cases h : k = key <;> simp [h, ih]

@[simp] theorem keysOf_nil {α β : Type} : keysOf ([] : List (α × β)) = [] := rfl

@[simp] theorem keysOf_cons {α β : Type} (p : α × β) (rest : List (α × β)) :
    keysOf (p :: rest) = p.1 :: keysOf rest := rfl

@[simp] theorem keysOf_append {α β : Type} (m₁ m₂ : List (α × β)) :
    keysOf (m₁ ++ m₂) = keysOf m₁ ++ keysOf m₂ := by
  simp [keysOf]

@[simp] theorem mapAtKey_nil {α β : Type} [DecidableEq α] (k : α) (g : β → β) :
    mapAtKey ([] : List (α × β)) k g = [] := rfl

theorem mapAtKey_cons {α β : Type} [DecidableEq α] (k₀ : α) (v : β) (rest : List (α × β))
    (k : α) (g : β → β) :
    mapAtKey ((k₀, v) :: rest) k g =
      (if k₀ = k then (k₀, g v) else (k₀, v)) :: mapAtKey rest k g := by
  by_cases h : k₀ = k <;> simp [mapAtKey, h]

theorem lookupKey_eq_none_iff {α β : Type} [DecidableEq α] (m : List (α × β)) (key : α) :
    lookupKey m key = none ↔ key ∉ keysOf m := by
  induction m with
  | nil => simp
  | cons p rest ih =>
      obtain ⟨k, v⟩ := p
      by_cases h : k = key
      · subst h
        simp
      · simp only [lookupKey_cons, if_neg h, ih, keysOf_cons, List.mem_cons]
        constructor
        · rintro h1 (rfl | hm)
          · exact h rfl
          · exact h1 hm
        · exact fun h2 hm => h2 (Or.inr hm)

theorem lookupKey_isSome_iff {α β : Type} [DecidableEq α] (m : List (α × β)) (key : α) :
    (lookupKey m key).isSome = true ↔ key ∈ keysOf m := by
  rcases h : lookupKey m key with _ | v
  · rw [lookupKey_eq_none_iff] at h
    simp [h]
  · have h' : ¬ lookupKey m key = none := by simp [h]
    rw [lookupKey_eq_none_iff, not_not] at h'
    simp [h']

theorem mem_keys_of_lookupKey {α β : Type} [DecidableEq α] {m : List (α × β)} {key : α}
    {v : β} (h : lookupKey m key = some v) : key ∈ keysOf m := by
  rw [← lookupKey_isSome_iff, h]
  rfl

@[simp] theorem keysOf_mapAtKey {α β : Type} [DecidableEq α] (m : List (α × β)) (k : α)
    (g : β → β) : keysOf (mapAtKey m k g) = keysOf m := by
  induction m with
  | nil => rfl
  | cons p rest ih =>
      obtain ⟨k₀, v⟩ := p
      rw [mapAtKey_cons, keysOf_cons, keysOf_cons, ih]
      by_cases h : k₀ = k <;> simp [h]

theorem lookupKey_mapAtKey_self {α β : Type} [DecidableEq α] (m : List (α × β)) (k : α)
    (g : β → β) : lookupKey (mapAtKey m k g) k = (lookupKey m k).map g := by
  induction m with
  | nil => rfl
  | cons p rest ih =>
      obtain ⟨k₀, v⟩ := p
      rw [mapAtKey_cons]
      by_cases h : k₀ = k <;> simp [h, ih]

theorem lookupKey_mapAtKey_ne {α β : Type} [DecidableEq α] (m : List (α × β)) (k k' : α)
    (g : β → β) (h : k' ≠ k) : lookupKey (mapAtKey m k g) k' = lookupKey m k' := by
  induction m with
  | nil => rfl
  | cons p rest ih =>
      obtain ⟨k₀, v⟩ := p
      rw [mapAtKey_cons]
      by_cases h0 : k₀ = k
      · subst h0
        simp [Ne.symm h, ih]
      · by_cases h1 : k₀ = k' <;> simp [h0, h1, h, ih]

theorem mapAtKey_of_not_mem {α β : Type} [DecidableEq α] (m : List (α × β)) (k : α)
    (g : β → β) : k ∉ keysOf m → mapAtKey m k g = m := by
  induction m with
  | nil => intro _; rfl
  | cons p rest ih =>
      obtain ⟨k₀, v⟩ := p
      intro h
      rw [keysOf_cons, List.mem_cons] at h
      push_neg at h
      rw [mapAtKey_cons, if_neg (fun he => h.1 he.symm), ih h.2]

/-! ## Path model

`splitPath`, `dropCommonSegs`, `joinSegs` and `pathRelative` model Node's
`path.relative` (an external collaborator, used by `normalizePathForOutput`)
on normalized absolute POSIX paths: both paths are split into their nonempty
`/`-separated segments, the shared leading segments are removed, and the
remainder of the target is joined behind one `..` per remaining source
segment. -/

/-- Split a character list on `/`, keeping empty pieces. -/
def splitOnSlash : List Char → List (List Char)
  | [] => [[]]
  | c :: rest =>
      match splitOnSlash rest with
      | [] => [[c]]
      | seg :: segs => if c = '/' then [] :: seg :: segs else (c :: seg) :: segs

/-- The nonempty `/`-separated segments of a path. -/
def splitPath (s : String) : List String :=
  ((splitOnSlash s.data).map (fun cs => String.mk cs)).filter (fun seg => seg ≠ "")

/-- Drop the shared leading segments of two segment lists. -/
def dropCommonSegs : List String → List String → List String × List String
  | a :: as, b :: bs => if a = b then dropCommonSegs as bs else (a :: as, b :: bs)
  | as, bs => (as, bs)

/-- Join segments with `/` separators. -/
def joinSegs : List String → String
  | [] => ""
  | [a] => a
  | a :: rest => a ++ "/" ++ joinSegs rest

/-- Model of Node `path.relative` on normalized absolute POSIX paths. -/
def pathRelative (fromPath toPath : String) : String :=
  match dropCommonSegs (splitPath fromPath) (splitPath toPath) with
  | (fr, tr) => joinSegs (fr.map (fun _ => "..") ++ tr)

/-- Model of `String.prototype.startsWith`: `pre` is a prefix of `s`. -/
def strStartsWith (s pre : String) : Bool := pre.data.isPrefixOf s.data

/-- `relative.replace(/^[/\\]/, '')`: strip one leading slash or backslash. -/
def stripLeadingSep (s : String) : String :=
  if strStartsWith s "/" || strStartsWith s "\\" then String.mk (s.data.drop 1) else s

/-- `normalizePathForOutput`, parameterized over the relativization
collaborator so that a throwing `path.relative` (the `catch` branch of the
source) is representable as `none`. -/
def normalizePathForOutputCore (rel : String → String → Option String)
    (repoPath p : String) : String :=
  if p = "" then p
  else
    match rel repoPath p with
    | none => p
    | some relative =>
        if relative ≠ "" ∧ strStartsWith relative ".." = false then stripLeadingSep relative
        else p

/-- `normalizePathForOutput` from `src/lib/propagationUtils.js`: convert an
absolute file path to a repo-relative path for output, falling back to the
original path when it cannot be relativized. -/
def normalizePathForOutput (repoPath p : String) : String :=
  normalizePathForOutputCore (fun a b => some (pathRelative a b)) repoPath p

theorem dropCommonSegs_append (xs ys : List String) :
    dropCommonSegs xs (xs ++ ys) = ([], ys) := by
  induction xs with
  | nil => cases ys <;> rfl
  | cons a as ih => simp [dropCommonSegs, ih]

theorem joinSegs_ne_empty (a : String) (rest : List String) (ha : a ≠ "") :
    joinSegs (a :: rest) ≠ "" := by
  cases rest with
  | nil => simpa [joinSegs] using ha
  | cons b t =>
      simp only [joinSegs]
      intro h
      have hd : (a ++ "/" ++ joinSegs (b :: t)).data = ("" : String).data :=
        congrArg String.data h
      simp [String.data_append] at hd

theorem splitPath_mem_ne_empty {s : String} {seg : String} (h : seg ∈ splitPath s) :
    seg ≠ "" := by
  have := List.of_mem_filter h
  simpa using this

theorem splitPath_empty : splitPath "" = [] := rfl

/-- Unfolded form of `normalizePathForOutput`. -/
theorem normalizePathForOutput_eq (root p : String) :
    normalizePathForOutput root p =
      if p = "" then p
      else if pathRelative root p ≠ "" ∧ strStartsWith (pathRelative root p) ".." = false
        then stripLeadingSep (pathRelative root p) else p := by
  unfold normalizePathForOutput normalizePathForOutputCore
  by_cases hp : p = "" <;> simp [hp]

/-- C8 (counterexample): an absolute path that lies under the repository root
but whose first remaining segment begins with two dots (here a file literally
named `..weird.css`) is returned unchanged by `normalizePathForOutput`, not
relativized, because the computed relative path starts with `..`. -/
theorem normalizePathForOutput_under_root_cex :
    splitPath "/project/firefox/..weird.css" = splitPath "/project/firefox" ++ ["..weird.css"]
    ∧ normalizePathForOutput "/project/firefox" "/project/firefox/..weird.css"
        = "/project/firefox/..weird.css"
    ∧ joinSegs ["..weird.css"] ≠ "/project/firefox/..weird.css" := by
  refine ⟨by decide, by decide, by decide⟩

/-- C8 (amended): for a nonempty absolute path lying under the repository
root, `normalizePathForOutput` returns the path relative to the root,
provided the computed relative path does not itself start with `..` (or a
path separator, which would be stripped); a path whose relativization starts
with `..` — in particular any path outside the root — and any input on which
the relativization collaborator throws are returned unchanged, never an
error. -/
theorem normalizePathForOutput_spec :
    (∀ root p rest, splitPath p = splitPath root ++ rest → rest ≠ [] →
        strStartsWith (joinSegs rest) ".." = false →
        strStartsWith (joinSegs rest) "/" = false →
        strStartsWith (joinSegs rest) "\\" = false →
        normalizePathForOutput root p = joinSegs rest)
    ∧ (∀ root p, p ≠ "" → strStartsWith (pathRelative root p) ".." = true →
        normalizePathForOutput root p = p)
    ∧ (∀ rel root p, rel root p = none → normalizePathForOutputCore rel root p = p) := by
  refine ⟨?_, ?_, ?_⟩
  · intro root p rest hsplit hne hdots hslash hback
    obtain ⟨a, t, rfl⟩ : ∃ a t, rest = a :: t := by
      cases rest with
      | nil => exact absurd rfl hne
      | cons a t => exact ⟨a, t, rfl⟩
    have hpne : p ≠ "" := by
      intro hp
      rw [hp, splitPath_empty] at hsplit
      exact List.cons_ne_nil a t (List.append_eq_nil.mp hsplit.symm).2
    have hrel : pathRelative root p = joinSegs (a :: t) := by
      unfold pathRelative
      rw [hsplit, dropCommonSegs_append]
      rfl
    have hmem : a ∈ splitPath p := by
      rw [hsplit]
      exact List.mem_append_right _ (List.mem_cons_self a t)
    have hjne : joinSegs (a :: t) ≠ "" :=
      joinSegs_ne_empty a t (splitPath_mem_ne_empty hmem)
    rw [normalizePathForOutput_eq, if_neg hpne, hrel, if_pos ⟨hjne, hdots⟩]
    unfold stripLeadingSep
    rw [if_neg (by simp [hslash, hback])]
  · intro root p hpne hdots
    rw [normalizePathForOutput_eq, if_neg hpne, if_neg]
    rintro ⟨-, hfalse⟩
    rw [hdots] at hfalse
    exact absurd hfalse (by decide)
  · intro rel root p hnone
    unfold normalizePathForOutputCore
    by_cases hp : p = ""
    · rw [if_pos hp]
    · rw [if_neg hp, hnone]

/-- Witness for the amended C8 theorem at a concrete path under the root. -/
theorem normalizePathForOutput_spec_witness :
    splitPath "/project/firefox/toolkit/foo.css" = splitPath "/project/firefox" ++ ["toolkit", "foo.css"]
    ∧ normalizePathForOutput "/project/firefox" "/project/firefox/toolkit/foo.css"
        = joinSegs ["toolkit", "foo.css"] :=
  ⟨by decide,
   normalizePathForOutput_spec.1 "/project/firefox" "/project/firefox/toolkit/foo.css"
     ["toolkit", "foo.css"] (by decide) (by decide) (by decide) (by decide) (by decide)⟩

/-! ## Per-file summary and percentage (`getPropagationData`, lines 495–530)

A declaration after `resolveDeclarationReferences` carries the two flags the
summary inspects (`containsDesignToken` from `analyzeTrace`, `isExcluded`
from `containsExcludedDeclaration`). -/

structure ResolvedDecl where
  prop : String
  value : String
  containsDesignToken : Bool
  isExcluded : Bool
deriving DecidableEq, Repr

structure DesignTokenSummary where
  designTokenCount : Nat
  ignoredValueCount : Nat
deriving DecidableEq, Repr

/-- `computeDesignTokenSummary` from `src/lib/propagationUtils.js`: number of
declarations using design tokens, and number of ignored values (excluded
declarations without design tokens). -/
def computeDesignTokenSummary (declarations : List ResolvedDecl) : DesignTokenSummary :=
  { designTokenCount := (declarations.filter (fun d => d.containsDesignToken)).length
    ignoredValueCount :=
      (declarations.filter (fun d => d.isExcluded && !d.containsDesignToken)).length }

/-- `+(x).toFixed(2)` on an ideal (exact) number: round to two decimals. -/
def roundTo2 (q : ℚ) : ℚ := (round (q * 100) : ℤ) / 100

/-- The percentage computation of `getPropagationData`:
`foundLessIgnored = foundPropValues.length - ignoredValueCount`, and
`percentage = +(designTokenCount / foundLessIgnored * 100).toFixed(2)` when
`foundPropValues.length` is truthy and `foundLessIgnored !== 0`, else `-1`. -/
def computePercentage (declarations : List ResolvedDecl) : ℚ :=
  let s := computeDesignTokenSummary declarations
  let foundLessIgnored : ℤ := (declarations.length : ℤ) - (s.ignoredValueCount : ℤ)
  if declarations.length ≠ 0 ∧ foundLessIgnored ≠ 0 then
    roundTo2 (((s.designTokenCount : ℚ) / (foundLessIgnored : ℚ)) * 100)
  else -1

structure PropagationSummary where
  designTokenCount : Nat
  foundProps : Nat
  percentage : ℚ
deriving DecidableEq, Repr

/-- The summary object returned by `getPropagationData` (the `foundPropValues`
and `foundVariables` fields are the inputs themselves and are omitted). -/
def getPropagationSummary (declarations : List ResolvedDecl) : PropagationSummary :=
  { designTokenCount := (computeDesignTokenSummary declarations).designTokenCount
    foundProps := declarations.length
    percentage := computePercentage declarations }

/-- Eligible (non-ignored) declarations: those that are not
(excluded ∧ token-free). -/
def eligibleCount (declarations : List ResolvedDecl) : Nat :=
  (declarations.filter (fun d => !(d.isExcluded && !d.containsDesignToken))).length

theorem length_filter_add_length_filter_not {α : Type} (p : α → Bool) (l : List α) :
    l.length = (l.filter p).length + (l.filter (fun a => !(p a))).length := by
  induction l with
  | nil => rfl
  | cons x t ih =>
      cases hx : p x <;> simp [List.filter_cons, hx] <;> omega

theorem length_eq_ignored_add_eligible (l : List ResolvedDecl) :
    l.length = (computeDesignTokenSummary l).ignoredValueCount + eligibleCount l := by
  have h := length_filter_add_length_filter_not
    (fun d : ResolvedDecl => d.isExcluded && !d.containsDesignToken) l
  simpa [computeDesignTokenSummary, eligibleCount] using h

theorem roundTo2_nonneg {q : ℚ} (hq : 0 ≤ q) : 0 ≤ roundTo2 q := by
  have h1 : (0 : ℤ) ≤ round (q * 100) := by
    rw [round_eq]
    refine Int.le_floor.mpr ?_
    push_cast
    nlinarith
  unfold roundTo2
  have h2 : (0 : ℚ) ≤ (round (q * 100) : ℤ) := by exact_mod_cast h1
  positivity

theorem computePercentage_eq (l : List ResolvedDecl) :
    computePercentage l =
      if l.length ≠ 0 ∧
          ((l.length : ℤ) - ((computeDesignTokenSummary l).ignoredValueCount : ℤ)) ≠ 0 then
        roundTo2 ((((computeDesignTokenSummary l).designTokenCount : ℚ) /
          ((((l.length : ℤ) - ((computeDesignTokenSummary l).ignoredValueCount : ℤ)) : ℤ) : ℚ)) * 100)
      else -1 := rfl

/-- C1: for every analyzed file, `getPropagationData` returns
`percentage = round(designTokenCount / (#declarations − #ignored) × 100)` to
two decimals; it returns the sentinel `-1` exactly when there are zero
eligible (non-ignored) declarations — including an empty or declaration-free
file — and `0` (a distinct valid result) when eligible declarations exist but
none contains a design token. -/
theorem getPropagationData_percentage_spec (declarations : List ResolvedDecl) :
    (computePercentage declarations = -1 ↔ eligibleCount declarations = 0)
    ∧ (eligibleCount declarations ≠ 0 →
        computePercentage declarations =
          roundTo2 ((((computeDesignTokenSummary declarations).designTokenCount : ℚ) /
            (eligibleCount declarations : ℚ)) * 100))
    ∧ (eligibleCount declarations ≠ 0 →
        (computeDesignTokenSummary declarations).designTokenCount = 0 →
        computePercentage declarations = 0) := by
  have hlen := length_eq_ignored_add_eligible declarations
  have hfli : (declarations.length : ℤ) -
      ((computeDesignTokenSummary declarations).ignoredValueCount : ℤ) =
      (eligibleCount declarations : ℤ) := by omega
  by_cases hez : eligibleCount declarations = 0
  · have hcond : ¬ (declarations.length ≠ 0 ∧
        ((declarations.length : ℤ) -
          ((computeDesignTokenSummary declarations).ignoredValueCount : ℤ)) ≠ 0) := by
      rintro ⟨-, h2⟩
      apply h2
      rw [hfli, hez]
      rfl
    have hval : computePercentage declarations = -1 := by
      rw [computePercentage_eq, if_neg hcond]
    exact ⟨⟨fun _ => hez, fun _ => hval⟩,
      fun hne => absurd hez hne, fun hne _ => absurd hez hne⟩
  · have hlenne : declarations.length ≠ 0 := by omega
    have hfline : ((declarations.length : ℤ) -
        ((computeDesignTokenSummary declarations).ignoredValueCount : ℤ)) ≠ 0 := by
      rw [hfli]
      exact_mod_cast hez
    have hcast : (((((declarations.length : ℤ) -
        ((computeDesignTokenSummary declarations).ignoredValueCount : ℤ)) : ℤ)) : ℚ) =
        (eligibleCount declarations : ℚ) := by
      rw [hfli]
      push_cast
      ring
    have hpe : computePercentage declarations =
        roundTo2 ((((computeDesignTokenSummary declarations).designTokenCount : ℚ) /
          (eligibleCount declarations : ℚ)) * 100) := by
      rw [computePercentage_eq, if_pos ⟨hlenne, hfline⟩, hcast]
    have hx : (0 : ℚ) ≤ (((computeDesignTokenSummary declarations).designTokenCount : ℚ) /
        (eligibleCount declarations : ℚ)) * 100 := by positivity
    have hnn := roundTo2_nonneg hx
    refine ⟨⟨fun hmone => ?_, fun h0 => absurd h0 hez⟩, fun _ => hpe, fun _ htok => ?_⟩
    · rw [hpe] at hmone
      rw [hmone] at hnn
      norm_num at hnn
    · rw [hpe, htok]
      simp [roundTo2]

/-- Witness for C1 at a file with exactly one token-using declaration out of
two eligible ones; the percentage evaluates to 50. -/
theorem getPropagationData_percentage_spec_witness :
    eligibleCount
        [{ prop := "color", value := "var(--color-accent-primary)",
           containsDesignToken := true, isExcluded := false },
         { prop := "border", value := "1px solid var(--spacing)",
           containsDesignToken := false, isExcluded := false },
         { prop := "background-color", value := "inherit",
           containsDesignToken := false, isExcluded := true }] ≠ 0
    ∧ computePercentage
        [{ prop := "color", value := "var(--color-accent-primary)",
           containsDesignToken := true, isExcluded := false },
         { prop := "border", value := "1px solid var(--spacing)",
           containsDesignToken := false, isExcluded := false },
         { prop := "background-color", value := "inherit",
           containsDesignToken := false, isExcluded := true }] =
      roundTo2 ((((computeDesignTokenSummary
        [{ prop := "color", value := "var(--color-accent-primary)",
           containsDesignToken := true, isExcluded := false },
         { prop := "border", value := "1px solid var(--spacing)",
           containsDesignToken := false, isExcluded := false },
         { prop := "background-color", value := "inherit",
           containsDesignToken := false, isExcluded := true }]).designTokenCount : ℚ) /
        (eligibleCount
        [{ prop := "color", value := "var(--color-accent-primary)",
           containsDesignToken := true, isExcluded := false },
         { prop := "border", value := "1px solid var(--spacing)",
           containsDesignToken := false, isExcluded := false },
         { prop := "background-color", value := "inherit",
           containsDesignToken := false, isExcluded := true }] : ℚ)) * 100) :=
  ⟨by decide,
   (getPropagationData_percentage_spec _).2.1 (by decide)⟩

/-! ## Substring containment (for error-message claims) -/

/-- Sliding-window substring test on character lists. -/
def listContains (pat : List Char) : List Char → Bool
  | [] => pat.isEmpty
  | c :: rest => pat.isPrefixOf (c :: rest) || listContains pat rest

/-- `s.includes(pat)` for strings. -/
def strContains (s pat : String) : Bool := listContains pat.data s.data

theorem isPrefixOf_append_self (xs ys : List Char) : xs.isPrefixOf (xs ++ ys) = true := by
  induction xs with
  | nil => simp [List.isPrefixOf]
  | cons x t ih => simp [List.isPrefixOf, ih]

theorem listContains_of_isPrefixOf (l pat : List Char) (h : pat.isPrefixOf l = true) :
    listContains pat l = true := by
  cases l with
  | nil =>
      cases pat with
      | nil => rfl
      | cons p ps => exact absurd h (by simp [List.isPrefixOf])
  | cons c rest =>
      unfold listContains
      rw [h]
      rfl

theorem listContains_infix (pat pre suf : List Char) :
    listContains pat (pre ++ (pat ++ suf)) = true := by
  induction pre with
  | nil => exact listContains_of_isPrefixOf _ _ (isPrefixOf_append_self pat suf)
  | cons c t ih => simp [listContains, ih]

theorem strContains_triple (a b c : String) : strContains (a ++ b ++ c) b = true := by
  unfold strContains
  have hd : (a ++ b ++ c).data = a.data ++ (b.data ++ c.data) := by
    simp [String.data_append]
  rw [hd]
  exact listContains_infix b.data a.data c.data

theorem strContains_append_right (a b : String) : strContains (a ++ b) b = true := by
  have h := strContains_triple a b ""
  simpa using h

/-! ## Error surface of `getPropagationData` (C7)

The `try/catch` of `getPropagationData` logs
`Unable to read or parse ${filePath} ${err.message}` and rethrows
`new Error(err)`; the rethrown error's message is the stringification
`Error: <message>` of the underlying error.  The outcome of the `fs.readFile`
and `parseCSS` collaborators is the `Except String` input. -/

structure RaisedError where
  logged : String
  message : String
deriving DecidableEq, Repr

/-- `getPropagationData`: on a successful read/parse, the summary; on failure,
the raised error (with the console diagnostic it was logged with). -/
def getPropagationDataResult (filePath : String)
    (parsed : Except String (List ResolvedDecl)) :
    Except RaisedError PropagationSummary :=
  match parsed with
  | Except.ok declarations => Except.ok (getPropagationSummary declarations)
  | Except.error msg =>
      Except.error
        { logged := "Unable to read or parse " ++ filePath ++ " " ++ msg
          message := "Error: " ++ msg }

/-- C7 (counterexample): for a failing file, `getPropagationData` raises an
error whose message is only the wrapped underlying message (`Error: boom`);
the file path appears in the logged console diagnostic but not in the raised
error itself, so the raised error does not carry the file path. -/
theorem getPropagationData_error_cex :
    getPropagationDataResult "/project/button.css" (Except.error "boom")
      = Except.error
          { logged := "Unable to read or parse /project/button.css boom"
            message := "Error: boom" }
    ∧ strContains "Error: boom" "/project/button.css" = false := by
  exact ⟨rfl, by decide⟩

/-- C7 (amended): for every file path whose read or parse fails,
`getPropagationData` raises an error (never resolving to a summary object);
the logged diagnostic carries both the file path and the underlying failure
message, while the raised error's own message carries the underlying failure
message wrapped as `Error: ...` (but not, in general, the file path). -/
theorem getPropagationData_error_spec (filePath msg : String) :
    ∃ e : RaisedError,
      getPropagationDataResult filePath (Except.error msg) = Except.error e
      ∧ strContains e.logged filePath = true
      ∧ strContains e.logged msg = true
      ∧ strContains e.message msg = true := by
  refine ⟨_, rfl, ?_, ?_, ?_⟩
  · show strContains ("Unable to read or parse " ++ filePath ++ " " ++ msg) filePath = true
    have hassoc : "Unable to read or parse " ++ filePath ++ " " ++ msg
        = "Unable to read or parse " ++ filePath ++ (" " ++ msg) := by
      simp [String.append_assoc]
    rw [hassoc]
    exact strContains_triple _ _ _
  · show strContains ("Unable to read or parse " ++ filePath ++ " " ++ msg) msg = true
    exact strContains_append_right _ _
  · show strContains ("Error: " ++ msg) msg = true
    exact strContains_append_right _ _

/-! ## Declaration resolution (`resolveDeclarationReferences`, lines 661–743)

`analyzeTrace ∘ buildResolutionTrace` and `extractDesignTokenIdsFromDecl`
live in `resolutionUtils.js` / `tokenUtils.js`, which are not part of the
sources; the per-declaration bookkeeping of `resolveDeclarationReferences`
is therefore parameterized over them. -/

structure Declaration where
  prop : String
  value : String
  startLine : Nat
deriving DecidableEq, Repr

/-- The two flags of `analyzeTrace(trace, prop)` that
`resolveDeclarationReferences` consumes. -/
structure Analysis where
  containsDesignToken : Bool
  containsExcludedDeclaration : Bool
deriving DecidableEq, Repr

/-- A record pushed onto `usageFindingsBuffer` (`tokens = none` models the
omitted property when no token ids were extracted). -/
structure Finding where
  path : String
  descriptor : String
  value : String
  containsToken : Bool
  isIgnored : Bool
  tokens : Option (List String)
deriving DecidableEq, Repr

/-- The per-declaration step of `resolveDeclarationReferences`: annotate with
`containsDesignToken` / `isExcluded`, derive
`isIgnoredValue = containsExcludedDeclaration && !containsDesignToken`, and
push the corresponding finding. -/
def findingOfDecl (analyze : String → String → Analysis)
    (extract : Declaration → List String) (filePath : String) (d : Declaration) : Finding :=
  let a := analyze d.value d.prop
  let tokenIds := extract d
  { path := filePath
    descriptor := d.prop
    value := d.value
    containsToken := a.containsDesignToken
    isIgnored := a.containsExcludedDeclaration && !a.containsDesignToken
    tokens := if tokenIds.length > 0 then some tokenIds else none }

/-- The annotation `resolveDeclarationReferences` leaves on the declaration
itself (the fields `computeDesignTokenSummary` reads). -/
def annotateDecl (analyze : String → String → Analysis) (d : Declaration) : ResolvedDecl :=
  { prop := d.prop
    value := d.value
    containsDesignToken := (analyze d.value d.prop).containsDesignToken
    isExcluded := (analyze d.value d.prop).containsExcludedDeclaration }

/-- `resolveDeclarationReferences` over a file's declarations: the findings
appended to the run-wide buffer and the annotated declarations (the report
writing is I/O and outside the model). -/
def resolveDeclarationReferences (analyze : String → String → Analysis)
    (extract : Declaration → List String) (filePath : String)
    (declarations : List Declaration) : List Finding × List ResolvedDecl :=
  (declarations.map (findingOfDecl analyze extract filePath),
   declarations.map (annotateDecl analyze))

/-- C4: the ignored flag used for aggregation and for the percentage
denominator equals `isExcluded && !containsDesignToken`; a declaration that
matches an exclusion rule but still resolves to a token is counted as token
usage (it increments `designTokenCount`, not `ignoredValueCount`, and stays
in the eligible denominator). -/
theorem isIgnored_is_excluded_and_not_token
    (analyze : String → String → Analysis) (extract : Declaration → List String)
    (filePath : String) (d : Declaration) :
    ((findingOfDecl analyze extract filePath d).isIgnored =
      ((analyze d.value d.prop).containsExcludedDeclaration
        && !(analyze d.value d.prop).containsDesignToken))
    ∧ ((analyze d.value d.prop).containsExcludedDeclaration = true →
       (analyze d.value d.prop).containsDesignToken = true →
       ∀ l1 l2 : List ResolvedDecl,
         (findingOfDecl analyze extract filePath d).isIgnored = false
         ∧ (findingOfDecl analyze extract filePath d).containsToken = true
         ∧ (computeDesignTokenSummary (l1 ++ annotateDecl analyze d :: l2)).designTokenCount
             = (computeDesignTokenSummary (l1 ++ l2)).designTokenCount + 1
         ∧ (computeDesignTokenSummary (l1 ++ annotateDecl analyze d :: l2)).ignoredValueCount
             = (computeDesignTokenSummary (l1 ++ l2)).ignoredValueCount
         ∧ eligibleCount (l1 ++ annotateDecl analyze d :: l2)
             = eligibleCount (l1 ++ l2) + 1) := by
  refine ⟨rfl, fun hexc htok l1 l2 => ⟨?_, ?_, ?_, ?_, ?_⟩⟩
  · simp [findingOfDecl, hexc, htok]
  · simp [findingOfDecl, htok]
  · simp [computeDesignTokenSummary, List.filter_append, List.filter_cons, annotateDecl,
      htok]
    omega
  · simp [computeDesignTokenSummary, List.filter_append, List.filter_cons, annotateDecl,
      htok, hexc]
  · simp [eligibleCount, List.filter_append, List.filter_cons, annotateDecl, htok]
    omega

/-- Witness for C4: a concrete excluded-but-token-resolving declaration. -/
theorem isIgnored_is_excluded_and_not_token_witness :
    ((fun _ _ => { containsDesignToken := true, containsExcludedDeclaration := true
                   : Analysis }) "inherit" "background-color").containsExcludedDeclaration = true
    ∧ (computeDesignTokenSummary
        ([] ++ annotateDecl
          (fun _ _ => { containsDesignToken := true, containsExcludedDeclaration := true })
          { prop := "background-color", value := "inherit", startLine := 3 } :: [])).designTokenCount
        = (computeDesignTokenSummary ([] ++ [])).designTokenCount + 1 :=
  ⟨rfl,
   ((isIgnored_is_excluded_and_not_token
      (fun _ _ => { containsDesignToken := true, containsExcludedDeclaration := true })
      (fun _ => ["--color-accent-primary"]) "/project/a.css"
      { prop := "background-color", value := "inherit", startLine := 3 }).2
      rfl rfl [] []).2.2.1⟩

/-! ## `collectDeclarations` (lines 609–639)

A walked AST node carries its property, value, the selector of its enclosing
rule and that rule rendered back to text (for the self-consumption check).
Nodes without `prop`/`value` (rules, comments) carry empty strings and are
skipped by the walk's guard. -/

structure CssNode where
  prop : String
  value : String
  parentSelector : String
  parentText : String
  startLine : Nat
deriving DecidableEq, Repr

structure VarData where
  name : String
  value : String
  isExternal : Bool
deriving DecidableEq, Repr

/-- Modelled from the spec: `isVariableDefinition` from `tokenUtils.js` (not
in the sources) — the property is a custom-property name (`--*`). -/
def isVariableDefinition (prop : String) : Bool := strStartsWith prop "--"

/-- Modelled from the spec: `isTokenizableProperty` from `tokenUtils.js` (not
in the sources) — membership in the configured token-expected property
list. -/
def isTokenizableProperty (designTokenProperties : List String) (prop : String) : Bool :=
  designTokenProperties.contains prop

/-- Modelled from the spec: `isWithinValidParentSelector` from
`tokenUtils.js` (not in the sources) — the declaration sits in a `:root` or
`:host` rule block. -/
def isWithinValidParentSelector (node : CssNode) : Bool :=
  node.parentSelector == ":root" || node.parentSelector == ":host"

/-- Modelled from the spec: `getVarData` from `externalVars.js` (not in the
sources) — package a definition with its external flag. -/
def getVarData (node : CssNode) (isExternal : Bool) : VarData :=
  { name := node.prop, value := node.value, isExternal := isExternal }

/-- `ruleConsumesVar`: the enclosing rule's text contains `var(<prop>)`
(only meaningful on variable definitions). -/
def ruleConsumesVar (node : CssNode) : Bool :=
  isVariableDefinition node.prop
    && strContains node.parentText ("var(" ++ node.prop ++ ")")

structure CollectState where
  declarations : List Declaration
  vars : List (String × VarData)
  log : List String
deriving DecidableEq, Repr

/-- The console message of the duplicate-definition branch. -/
def collisionMsg (repoPath filePath : String) (node : CssNode) : String :=
  pathRelative repoPath filePath ++ ":" ++ toString node.startLine ++ " \"" ++ node.prop
    ++ "\" already exists, skipping..."

/-- One step of the `root.walk` callback of `collectDeclarations`. -/
def collectStep (designTokenProperties : List String) (repoPath filePath : String)
    (st : CollectState) (node : CssNode) : CollectState :=
  if node.prop = "" ∨ node.value = "" then st
  else if isTokenizableProperty designTokenProperties node.prop then
    { st with declarations := st.declarations ++
        [{ prop := node.prop, value := node.value, startLine := node.startLine }] }
  else if isVariableDefinition node.prop
      && (isWithinValidParentSelector node || ruleConsumesVar node) then
    if (lookupKey st.vars node.prop).isSome then
      { st with log := st.log ++ [collisionMsg repoPath filePath node] }
    else
      { st with vars := st.vars ++ [(node.prop, getVarData node false)] }
  else st

/-- `collectDeclarations`: walk the AST collecting tokenizable declarations
and in-scope local variable definitions on top of the externally collected
`foundVariables`. -/
def collectDeclarations (designTokenProperties : List String) (repoPath filePath : String)
    (nodes : List CssNode) (foundVariables : List (String × VarData)) : CollectState :=
  nodes.foldl (collectStep designTokenProperties repoPath filePath)
    { declarations := [], vars := foundVariables, log := [] }

theorem collectStep_preserves_lookup (designTokenProperties : List String)
    (repoPath filePath : String) (st : CollectState) (node : CssNode)
    (name : String) (v : VarData) (h : lookupKey st.vars name = some v) :
    lookupKey (collectStep designTokenProperties repoPath filePath st node).vars name
      = some v := by
  unfold collectStep
  by_cases h1 : node.prop = "" ∨ node.value = ""
  · rw [if_pos h1]
    exact h
  · rw [if_neg h1]
    by_cases h2 : isTokenizableProperty designTokenProperties node.prop = true
    · rw [if_pos h2]
      exact h
    · rw [if_neg h2]
      by_cases h3 : (isVariableDefinition node.prop
          && (isWithinValidParentSelector node || ruleConsumesVar node)) = true
      · rw [if_pos h3]
        by_cases h4 : (lookupKey st.vars node.prop).isSome = true
        · rw [if_pos h4]
          exact h
        · rw [if_neg h4]
          show lookupKey (st.vars ++ [(node.prop, getVarData node false)]) name = some v
          rw [lookupKey_append, h]
      · rw [if_neg h3]
        exact h

theorem collect_foldl_preserves_lookup (designTokenProperties : List String)
    (repoPath filePath : String) (nodes : List CssNode) :
    ∀ (st : CollectState) (name : String) (v : VarData),
      lookupKey st.vars name = some v →
      lookupKey (nodes.foldl (collectStep designTokenProperties repoPath filePath) st).vars
        name = some v := by
  induction nodes with
  | nil => exact fun st name v h => h
  | cons node rest ih =>
      intro st name v h
      exact ih _ name v
        (collectStep_preserves_lookup designTokenProperties repoPath filePath st node name v h)

/-- C6: during the `collectDeclarations` walk, a local custom-property
definition whose name is already present in the scope map is skipped — the
walk only logs the collision, leaving the declarations and variable map
unchanged (no exception, the step is total) — and an existing entry is never
overwritten by any later node of the walk. -/
theorem collectDeclarations_collision_spec :
    (∀ (designTokenProperties : List String) (repoPath filePath : String)
        (st : CollectState) (node : CssNode),
       ¬ (node.prop = "" ∨ node.value = "") →
       isTokenizableProperty designTokenProperties node.prop = false →
       (isVariableDefinition node.prop
         && (isWithinValidParentSelector node || ruleConsumesVar node)) = true →
       (lookupKey st.vars node.prop).isSome = true →
       collectStep designTokenProperties repoPath filePath st node
         = { st with log := st.log ++ [collisionMsg repoPath filePath node] })
    ∧ (∀ (designTokenProperties : List String) (repoPath filePath : String)
        (nodes : List CssNode) (foundVariables : List (String × VarData))
        (name : String) (v : VarData),
       lookupKey foundVariables name = some v →
       lookupKey (collectDeclarations designTokenProperties repoPath filePath nodes
         foundVariables).vars name = some v) := by
  constructor
  · intro designTokenProperties repoPath filePath st node h1 h2 h3 h4
    unfold collectStep
    rw [if_neg h1, if_neg (by simp [h2]), if_pos h3, if_pos h4]
  · intro designTokenProperties repoPath filePath nodes foundVariables name v h
    exact collect_foldl_preserves_lookup designTokenProperties repoPath filePath nodes _
      name v h

/-- Witness for C6: a duplicate `--accent` definition is logged and skipped,
and the pre-existing entry survives the whole walk unchanged. -/
theorem collectDeclarations_collision_spec_witness :
    (¬ (("--accent" : String) = "" ∨ ("var(--color-accent-primary)" : String) = ""))
    ∧ collectStep [] "/repo" "/repo/a.css"
        { declarations := []
          vars := [("--accent", { name := "--accent", value := "#fff", isExternal := true })]
          log := [] }
        { prop := "--accent", value := "var(--color-accent-primary)",
          parentSelector := ":root", parentText := "", startLine := 2 }
        = { declarations := []
            vars := [("--accent", { name := "--accent", value := "#fff", isExternal := true })]
            log := [collisionMsg "/repo" "/repo/a.css"
              { prop := "--accent", value := "var(--color-accent-primary)",
                parentSelector := ":root", parentText := "", startLine := 2 }] }
    ∧ lookupKey (collectDeclarations [] "/repo" "/repo/a.css"
        [{ prop := "--accent", value := "var(--color-accent-primary)",
           parentSelector := ":root", parentText := "", startLine := 2 }]
        [("--accent", { name := "--accent", value := "#fff", isExternal := true })]).vars
        "--accent"
        = some { name := "--accent", value := "#fff", isExternal := true } :=
  ⟨by decide,
   collectDeclarations_collision_spec.1 [] "/repo" "/repo/a.css"
     { declarations := []
       vars := [("--accent", { name := "--accent", value := "#fff", isExternal := true })]
       log := [] }
     { prop := "--accent", value := "var(--color-accent-primary)",
       parentSelector := ":root", parentText := "", startLine := 2 }
     (by decide) (by decide) (by decide) (by decide),
   collectDeclarations_collision_spec.2 [] "/repo" "/repo/a.css"
     [{ prop := "--accent", value := "var(--color-accent-primary)",
        parentSelector := ":root", parentText := "", startLine := 2 }]
     [("--accent", { name := "--accent", value := "#fff", isExternal := true })]
     "--accent" { name := "--accent", value := "#fff", isExternal := true } (by decide)⟩

/-! ## Resolution walk (C2)

`resolutionUtils.js` is not part of the sources; the walk below is modelled
from the specification §4.2: scan the value text for every `var(name)`
occurrence (including nested ones — scanning resumes right after each
`var(`), resolve each occurrence through the scope with a chain-based cycle
guard, and classify the terminal leaf. -/

inductive ResolutionLeaf where
  | token (id : String)
  | literalLeaf
  | unresolvedLeaf (name : String)
  | cycleLeaf (name : String)
deriving DecidableEq, Repr

/-- The referenced name of one `var(name[, fallback])` occurrence: the text
up to the first comma or closing parenthesis, trimmed of spaces. -/
def takeVarName (cs : List Char) : String :=
  let raw := cs.takeWhile (fun c => !(c == ',' || c == ')'))
  let ltrimmed := raw.dropWhile (fun c => c == ' ')
  String.mk ((ltrimmed.reverse.dropWhile (fun c => c == ' ')).reverse)

/-- Modelled from the spec: scan a value text for every `var(` occurrence and
collect the referenced names, one entry per occurrence (duplicates kept,
nested occurrences found because scanning resumes after the `var(`). -/
def scanVarNames : List Char → List String
  | [] => []
  | 'v' :: 'a' :: 'r' :: '(' :: rest => takeVarName rest :: scanVarNames rest
  | _ :: rest => scanVarNames rest

/-- Number of scope names not yet on the chain: the termination measure of
the resolution walk. -/
def chainMeasure (scope : List (String × String)) (chain : List String) : Nat :=
  ((keysOf scope).filter (fun k => decide (k ∉ chain))).length

theorem length_filter_le_of_imp {α : Type} (l : List α) (p q : α → Bool)
    (h : ∀ a, p a = true → q a = true) :
    (l.filter p).length ≤ (l.filter q).length := by
  induction l with
  | nil => simp
  | cons x t ih =>
      rw [List.filter_cons, List.filter_cons]
      cases hx : p x
      · cases hq : q x <;> simp [hq] <;> omega
      · rw [h x hx]
        simpa using Nat.succ_le_succ ih

theorem length_filter_not_mem_cons_lt (l chain : List String) (name : String)
    (hmem : name ∈ l) (hnot : name ∉ chain) :
    (l.filter (fun k => decide (k ∉ name :: chain))).length
      < (l.filter (fun k => decide (k ∉ chain))).length := by
  induction l with
  | nil => cases hmem
  | cons a t ih =>
      rw [List.filter_cons, List.filter_cons]
      rcases List.mem_cons.mp hmem with rfl | hmt
      · have h1 : decide (name ∉ name :: chain) = false := by simp
        have h2 : decide (name ∉ chain) = true := by simpa using hnot
        rw [h1, h2, if_neg (by decide), if_pos rfl, List.length_cons]
        have hle := length_filter_le_of_imp t
          (fun k => decide (k ∉ name :: chain)) (fun k => decide (k ∉ chain))
          (fun k hk => by
            simp only [decide_eq_true_eq] at *
            exact fun hc => hk (List.mem_cons_of_mem name hc))
        omega
      · have hle := ih hmt
        cases ha1 : decide (a ∉ name :: chain)
        · rw [if_neg (by decide)]
          cases ha2 : decide (a ∉ chain)
          · rw [if_neg (by decide)]
            exact hle
          · rw [if_pos rfl, List.length_cons]
            omega
        · have ha2 : decide (a ∉ chain) = true := by
            simp only [decide_eq_true_eq] at ha1 ⊢
            exact fun hc => ha1 (List.mem_cons_of_mem name hc)
          rw [if_pos rfl, ha2, if_pos rfl, List.length_cons, List.length_cons]
          exact Nat.succ_lt_succ hle

theorem chainMeasure_cons_lt (scope : List (String × String)) (chain : List String)
    (name : String) (hmem : name ∈ keysOf scope) (hnot : name ∉ chain) :
    chainMeasure scope (name :: chain) < chainMeasure scope chain :=
  length_filter_not_mem_cons_lt (keysOf scope) chain name hmem hnot

mutual

/-- Modelled from the spec (§4.2, `resolutionUtils.js` is not in the
sources): resolve one `var()` occurrence referencing `name`.  If the name
reappears on the chain built for this occurrence the walk stops with a
terminal `cycle` leaf; a design-token name is a terminal `token` leaf; an
in-scope name recurses into the definition's raw value with the chain
extended; anything else is a terminal `unresolved` leaf. -/
def resolveName (tokens : List String) (scope : List (String × String))
    (chain : List String) (name : String) : List ResolutionLeaf :=
  if h1 : name ∈ chain then [ResolutionLeaf.cycleLeaf name]
  else if name ∈ tokens then [ResolutionLeaf.token name]
  else
    match h3 : lookupKey scope name with
    | none => [ResolutionLeaf.unresolvedLeaf name]
    | some raw =>
        match scanVarNames raw.data with
        | [] => [ResolutionLeaf.literalLeaf]
        | n :: ns => resolveOccs tokens scope (name :: chain) (n :: ns)
termination_by (chainMeasure scope chain, 0)
decreasing_by
  apply Prod.Lex.left
  exact chainMeasure_cons_lt scope chain name (mem_keys_of_lookupKey h3) h1

/-- Resolve every occurrence found in a substituted value. -/
def resolveOccs (tokens : List String) (scope : List (String × String))
    (chain : List String) (names : List String) : List ResolutionLeaf :=
  match names with
  | [] => []
  | n :: ns => resolveName tokens scope chain n ++ resolveOccs tokens scope chain ns
termination_by (chainMeasure scope chain, names.length + 1)
decreasing_by
  · apply Prod.Lex.right
    simp only [List.length_cons]
    omega
  · apply Prod.Lex.right
    simp only [List.length_cons]
    omega

end

/-- Modelled from the spec: `buildTrace(value, scope)` (§4.2) — one
occurrence-trace per `var()` occurrence of the value text. -/
def buildTrace (tokens : List String) (scope : List (String × String))
    (value : String) : List (List ResolutionLeaf) :=
  (scanVarNames value.data).map (fun n => resolveName tokens scope [] n)

/-- C2: the resolution walk is a total function by construction (well-founded
on the scope names not yet on the chain), and whenever the resolved name
already appears in the chain being built for the current `var()` occurrence,
the walk stops and classifies that occurrence as a terminal `cycle` leaf
instead of recursing further. -/
theorem resolveName_cycle_guard (tokens : List String) (scope : List (String × String))
    (chain : List String) (name : String) (h : name ∈ chain) :
    resolveName tokens scope chain name = [ResolutionLeaf.cycleLeaf name] := by
  unfold resolveName
  rw [dif_pos h]

/-- Witness for C2 on the pathological chain `--A: var(--B)`, `--B: var(--A)`
at the point where `--A` reappears. -/
theorem resolveName_cycle_guard_witness :
    ("--A" : String) ∈ ["--B", "--A"]
    ∧ resolveName ["--color-accent-primary"]
        [("--A", "var(--B)"), ("--B", "var(--A)")] ["--B", "--A"] "--A"
        = [ResolutionLeaf.cycleLeaf "--A"] :=
  ⟨by decide,
   resolveName_cycle_guard ["--color-accent-primary"]
     [("--A", "var(--B)"), ("--B", "var(--A)")] ["--B", "--A"] "--A" (by decide)⟩

/-! ## Usage aggregation (`buildUsageAggregates`, lines 793–873)

The two run-level maps (`tokenUsage.byToken`, `descriptorValues.byDescriptor`)
are built by one pass over the findings, then compact numeric IDs are
assigned to descriptors and values from a single shared counter
(`generatedAt` / `schemaVersion` metadata are wall-clock and constant and
are outside the model). -/

structure TokenEntry where
  total : Nat
  files : List (String × Nat)
  descriptors : List (String × Nat)
deriving DecidableEq, Repr

structure ValueEntry where
  count : Nat
  containsToken : Bool
  isIgnored : Bool
  tokens : Option (List String)
  files : List (String × Nat)
  id : Option String
deriving DecidableEq, Repr

structure DescriptorEntry where
  id : Option String
  values : List (String × ValueEntry)
deriving DecidableEq, Repr

structure Aggregates where
  byToken : List (String × TokenEntry)
  byDescriptor : List (String × DescriptorEntry)
deriving DecidableEq, Repr

/-- The value bucket created on first sight of a `(descriptor, value)` pair:
`containsToken`/`isIgnored` seeded from that finding, `tokens` attached only
if that finding carried a non-empty list. -/
def initialValueEntry (f : Finding) : ValueEntry :=
  { count := 0
    containsToken := f.containsToken
    isIgnored := f.isIgnored
    tokens :=
      match f.tokens with
      | some ts => if ts.length > 0 then some ts else none
      | none => none
    files := []
    id := none }

/-- `byDescriptor[d] ?? (byDescriptor[d] = { values: {} })`. -/
def touchDescriptor (m : List (String × DescriptorEntry)) (d : String) :
    List (String × DescriptorEntry) :=
  match lookupKey m d with
  | some _ => m
  | none => m ++ [(d, { id := none, values := [] })]

/-- `values[v] ?? (values[v] = initial entry)`. -/
def touchValue (e : DescriptorEntry) (f : Finding) : DescriptorEntry :=
  match lookupKey e.values f.value with
  | some _ => e
  | none => { e with values := e.values ++ [(f.value, initialValueEntry f)] }

/-- `count += 1; if (isIgnored) valueEntry.isIgnored = true; files[rel]++`. -/
def bumpValueEntry (v : ValueEntry) (f : Finding) (relPath : String) : ValueEntry :=
  { v with
    count := v.count + 1
    isIgnored := v.isIgnored || f.isIgnored
    files := bumpCount v.files relPath }

def updateDescriptorEntry (e : DescriptorEntry) (f : Finding) (relPath : String) :
    DescriptorEntry :=
  let e1 := touchValue e f
  { e1 with values := mapAtKey e1.values f.value (fun q => bumpValueEntry q f relPath) }

/-- The descriptor-centric half of the aggregation loop body. -/
def processDescriptorSide (m : List (String × DescriptorEntry)) (f : Finding)
    (relPath : String) : List (String × DescriptorEntry) :=
  mapAtKey (touchDescriptor m f.descriptor) f.descriptor
    (fun e => updateDescriptorEntry e f relPath)

/-- One token occurrence: create the token entry if needed, then
`total += 1; files[rel]++; descriptors[descriptor]++`. -/
def addTokenOccurrence (m : List (String × TokenEntry)) (tokenId relPath descriptor : String) :
    List (String × TokenEntry) :=
  let m1 :=
    match lookupKey m tokenId with
    | some _ => m
    | none => m ++ [(tokenId, { total := 0, files := [], descriptors := [] })]
  mapAtKey m1 tokenId (fun e =>
    { total := e.total + 1
      files := bumpCount e.files relPath
      descriptors := bumpCount e.descriptors descriptor })

/-- The token-centric half of the loop body (`if (Array.isArray(tokens))`). -/
def processTokenSide (m : List (String × TokenEntry)) (f : Finding) (relPath : String) :
    List (String × TokenEntry) :=
  match f.tokens with
  | none => m
  | some ts => ts.foldl (fun acc t => addTokenOccurrence acc t relPath f.descriptor) m

/-- The aggregation loop body for one finding. -/
def processFinding (repoPath : String) (agg : Aggregates) (f : Finding) : Aggregates :=
  let relPath := normalizePathForOutput repoPath f.path
  { byDescriptor := processDescriptorSide agg.byDescriptor f relPath
    byToken := processTokenSide agg.byToken f relPath }

/-- `Object.keys(...).sort()` for string keys (JS default sort: by code
units; on these names, lexicographic string order). -/
def sortStr (l : List String) : List String := List.insertionSort (fun a b => a ≤ b) l

def valueKeysOf (m : List (String × DescriptorEntry)) (d : String) : List String :=
  match lookupKey m d with
  | some e => keysOf e.values
  | none => []

def setDescriptorId (m : List (String × DescriptorEntry)) (d i : String) :
    List (String × DescriptorEntry) :=
  mapAtKey m d (fun e => { e with id := some i })

def setValueId (m : List (String × DescriptorEntry)) (d v i : String) :
    List (String × DescriptorEntry) :=
  mapAtKey m d (fun e =>
    { e with values := mapAtKey e.values v (fun q => { q with id := some i }) })

/-- Inner loop of the ID pass: each value key takes `String(nextId++)`. -/
def assignValueIds : List (String × DescriptorEntry) → String → List String → Nat →
    List (String × DescriptorEntry) × Nat
  | m, _, [], n => (m, n)
  | m, d, v :: vs, n => assignValueIds (setValueId m d v (toString n)) d vs (n + 1)

/-- Outer loop of the ID pass: the descriptor takes `String(nextId++)`, then
its sorted value keys take the following counter states. -/
def assignIdsLoop : List (String × DescriptorEntry) → List String → Nat →
    List (String × DescriptorEntry)
  | m, [], _ => m
  | m, d :: rest, n =>
      let m1 := setDescriptorId m d (toString n)
      let vs := sortStr (valueKeysOf m1 d)
      let r := assignValueIds m1 d vs (n + 1)
      assignIdsLoop r.1 rest r.2

/-- The ID pass: walk the lexicographically sorted descriptor names with a
single shared counter starting at 0. -/
def assignIds (m : List (String × DescriptorEntry)) : List (String × DescriptorEntry) :=
  assignIdsLoop m (sortStr (keysOf m)) 0

/-- `buildUsageAggregates` from `src/lib/propagationUtils.js`. -/
def buildUsageAggregates (repoPath : String) (usageFindings : List Finding) : Aggregates :=
  let agg := usageFindings.foldl (processFinding repoPath)
    { byToken := [], byDescriptor := [] }
  { byToken := agg.byToken, byDescriptor := assignIds agg.byDescriptor }

/-- The `(descriptor, value)` bucket of the descriptor-centric aggregate. -/
def bucketOf (m : List (String × DescriptorEntry)) (d v : String) : Option ValueEntry :=
  (lookupKey m d).bind (fun e => lookupKey e.values v)

def descriptorIdOf (agg : Aggregates) (d : String) : Option String :=
  (lookupKey agg.byDescriptor d).bind (fun e => e.id)

def valueIdOf (agg : Aggregates) (d v : String) : Option String :=
  (bucketOf agg.byDescriptor d v).bind (fun q => q.id)

theorem lookupKey_touchDescriptor_self (m : List (String × DescriptorEntry)) (d : String) :
    lookupKey (touchDescriptor m d) d
      = some ((lookupKey m d).getD { id := none, values := [] }) := by
  unfold touchDescriptor
  cases h : lookupKey m d with
  | some e => simp [h]
  | none => rw [lookupKey_append, h]; simp

theorem lookupKey_touchDescriptor_ne (m : List (String × DescriptorEntry)) (d d' : String)
    (h : d' ≠ d) : lookupKey (touchDescriptor m d) d' = lookupKey m d' := by
  unfold touchDescriptor
  cases hm : lookupKey m d with
  | some e => rfl
  | none =>
      rw [lookupKey_append]
      cases hm' : lookupKey m d' with
      | some e => rfl
      | none => simp [Ne.symm h]

theorem lookupKey_touchValue_self (e : DescriptorEntry) (f : Finding) :
    lookupKey (touchValue e f).values f.value
      = some ((lookupKey e.values f.value).getD (initialValueEntry f)) := by
  unfold touchValue
  cases h : lookupKey e.values f.value with
  | some q => simp [h]
  | none => simp only; rw [lookupKey_append, h]; simp

theorem lookupKey_touchValue_ne (e : DescriptorEntry) (f : Finding) (v : String)
    (h : v ≠ f.value) : lookupKey (touchValue e f).values v = lookupKey e.values v := by
  unfold touchValue
  cases hm : lookupKey e.values f.value with
  | some q => rfl
  | none =>
      simp only
      rw [lookupKey_append]
      cases hm' : lookupKey e.values v with
      | some q => rfl
      | none => simp [Ne.symm h]

/-- What one loop iteration does to a `(descriptor, value)` bucket: the
finding's own pair is created-if-absent then bumped; every other pair is
untouched. -/
theorem bucketOf_processDescriptorSide (m : List (String × DescriptorEntry)) (f : Finding)
    (relPath d v : String) :
    bucketOf (processDescriptorSide m f relPath) d v =
      if f.descriptor = d ∧ f.value = v then
        some (bumpValueEntry ((bucketOf m d v).getD (initialValueEntry f)) f relPath)
      else bucketOf m d v := by
  unfold processDescriptorSide bucketOf
  by_cases hd : f.descriptor = d
  · subst hd
    rw [lookupKey_mapAtKey_self, lookupKey_touchDescriptor_self]
    by_cases hv : f.value = v
    · subst hv
      rw [if_pos ⟨rfl, rfl⟩]
      cases he : lookupKey m f.descriptor with
      | none =>
          simp only [he, Option.getD_none, Option.map_some', Option.some_bind]
          unfold updateDescriptorEntry
          simp only
          rw [lookupKey_mapAtKey_self, lookupKey_touchValue_self]
          simp
      | some e =>
          simp only [he, Option.getD_some, Option.map_some', Option.some_bind]
          unfold updateDescriptorEntry
          simp only
          rw [lookupKey_mapAtKey_self, lookupKey_touchValue_self]
          simp
    · rw [if_neg (fun hc => hv hc.2)]
      cases he : lookupKey m f.descriptor with
      | none =>
          simp only [he, Option.getD_none, Option.map_some', Option.some_bind,
            Option.none_bind]
          unfold updateDescriptorEntry
          simp only
          rw [lookupKey_mapAtKey_ne _ _ _ _ (fun hc => hv hc.symm),
            lookupKey_touchValue_ne _ _ _ (fun hc => hv hc.symm)]
          rfl
      | some e =>
          simp only [he, Option.getD_some, Option.map_some', Option.some_bind]
          unfold updateDescriptorEntry
          simp only
          rw [lookupKey_mapAtKey_ne _ _ _ _ (fun hc => hv hc.symm),
            lookupKey_touchValue_ne _ _ _ (fun hc => hv hc.symm)]
  · rw [if_neg (fun hc => hd hc.1), lookupKey_mapAtKey_ne _ _ _ _ (fun hc => hd hc.symm),
      lookupKey_touchDescriptor_ne _ _ _ (fun hc => hd hc.symm)]

theorem bucketOf_setDescriptorId (m : List (String × DescriptorEntry)) (d i d' v' : String) :
    bucketOf (setDescriptorId m d i) d' v' = bucketOf m d' v' := by
  unfold bucketOf setDescriptorId
  by_cases h : d' = d
  · subst h
    rw [lookupKey_mapAtKey_self]
    cases lookupKey m d' <;> rfl
  · rw [lookupKey_mapAtKey_ne _ _ _ _ h]

theorem bucketOf_setValueId_map {γ : Type} (g : ValueEntry → γ)
    (hg : ∀ q i, g { q with id := some i } = g q)
    (m : List (String × DescriptorEntry)) (d v i d' v' : String) :
    (bucketOf (setValueId m d v i) d' v').map g = (bucketOf m d' v').map g := by
  unfold bucketOf setValueId
  by_cases h : d' = d
  · subst h
    rw [lookupKey_mapAtKey_self]
    cases he : lookupKey m d' with
    | none => rfl
    | some e =>
        simp only [Option.map_some', Option.some_bind]
        by_cases hv : v' = v
        · subst hv
          rw [lookupKey_mapAtKey_self]
          cases lookupKey e.values v' <;> simp [hg]
        · rw [lookupKey_mapAtKey_ne _ _ _ _ hv]
  · rw [lookupKey_mapAtKey_ne _ _ _ _ h]

theorem bucketOf_assignValueIds_map {γ : Type} (g : ValueEntry → γ)
    (hg : ∀ q i, g { q with id := some i } = g q) (vs : List String) :
    ∀ (m : List (String × DescriptorEntry)) (d : String) (n : Nat) (d' v' : String),
      (bucketOf (assignValueIds m d vs n).1 d' v').map g = (bucketOf m d' v').map g := by
  induction vs with
  | nil => intro m d n d' v'; rfl
  | cons v vs ih =>
      intro m d n d' v'
      show (bucketOf (assignValueIds (setValueId m d v (toString n)) d vs (n + 1)).1
        d' v').map g = _
      rw [ih, bucketOf_setValueId_map g hg]

theorem bucketOf_assignIdsLoop_map {γ : Type} (g : ValueEntry → γ)
    (hg : ∀ q i, g { q with id := some i } = g q) (names : List String) :
    ∀ (m : List (String × DescriptorEntry)) (n : Nat) (d' v' : String),
      (bucketOf (assignIdsLoop m names n) d' v').map g = (bucketOf m d' v').map g := by
  induction names with
  | nil => intro m n d' v'; rfl
  | cons d rest ih =>
      intro m n d' v'
      show (bucketOf (assignIdsLoop
        (assignValueIds (setDescriptorId m d (toString n)) d
          (sortStr (valueKeysOf (setDescriptorId m d (toString n)) d)) (n + 1)).1 rest
        (assignValueIds (setDescriptorId m d (toString n)) d
          (sortStr (valueKeysOf (setDescriptorId m d (toString n)) d)) (n + 1)).2)
        d' v').map g = _
      rw [ih, bucketOf_assignValueIds_map g hg]
      rw [show (bucketOf (setDescriptorId m d (toString n)) d' v') = bucketOf m d' v' from
        bucketOf_setDescriptorId m d (toString n) d' v']

theorem bucketOf_assignIds_map {γ : Type} (g : ValueEntry → γ)
    (hg : ∀ q i, g { q with id := some i } = g q)
    (m : List (String × DescriptorEntry)) (d v : String) :
    (bucketOf (assignIds m) d v).map g = (bucketOf m d v).map g :=
  bucketOf_assignIdsLoop_map g hg (sortStr (keysOf m)) m 0 d v

/-- Sticky preservation: once a bucket is marked ignored, any further
findings leave it ignored. -/
theorem bucket_isIgnored_preserved (repoPath : String) (l : List Finding) :
    ∀ (acc : Aggregates) (d v : String) (e : ValueEntry),
      bucketOf acc.byDescriptor d v = some e → e.isIgnored = true →
      ∃ e', bucketOf (l.foldl (processFinding repoPath) acc).byDescriptor d v = some e'
        ∧ e'.isIgnored = true := by
  induction l with
  | nil => exact fun acc d v e he hi => ⟨e, he, hi⟩
  | cons f rest ih =>
      intro acc d v e he hi
      rw [List.foldl_cons]
      by_cases hp : f.descriptor = d ∧ f.value = v
      · refine ih (processFinding repoPath acc f) d v
          (bumpValueEntry ((bucketOf acc.byDescriptor d v).getD (initialValueEntry f)) f
            (normalizePathForOutput repoPath f.path)) ?_ ?_
        · show bucketOf (processDescriptorSide acc.byDescriptor f
            (normalizePathForOutput repoPath f.path)) d v = _
          rw [bucketOf_processDescriptorSide, if_pos hp]
        · rw [he]
          show (e.isIgnored || f.isIgnored) = true
          rw [hi]
          rfl
      · refine ih (processFinding repoPath acc f) d v e ?_ hi
        show bucketOf (processDescriptorSide acc.byDescriptor f
          (normalizePathForOutput repoPath f.path)) d v = _
        rw [bucketOf_processDescriptorSide, if_neg hp]
        exact he

/-- C9: the `isIgnored` flag of a `(descriptor, value)` bucket is sticky-OR
monotone — as soon as one finding for the pair is ignored, the bucket built
by `buildUsageAggregates` is ignored, whatever findings for the same pair
come later. -/
theorem buildUsageAggregates_isIgnored_sticky (repoPath : String) (l1 l2 : List Finding)
    (f : Finding) (h : f.isIgnored = true) :
    ∃ e, bucketOf (buildUsageAggregates repoPath (l1 ++ f :: l2)).byDescriptor
        f.descriptor f.value = some e
      ∧ e.isIgnored = true := by
  have hfold : ∃ e', bucketOf ((l1 ++ f :: l2).foldl (processFinding repoPath)
      { byToken := [], byDescriptor := [] }).byDescriptor f.descriptor f.value = some e'
      ∧ e'.isIgnored = true := by
    rw [List.foldl_append, List.foldl_cons]
    set acc := l1.foldl (processFinding repoPath) { byToken := [], byDescriptor := [] }
    refine bucket_isIgnored_preserved repoPath l2 (processFinding repoPath acc f)
      f.descriptor f.value
      (bumpValueEntry ((bucketOf acc.byDescriptor f.descriptor f.value).getD
        (initialValueEntry f)) f (normalizePathForOutput repoPath f.path)) ?_ ?_
    · show bucketOf (processDescriptorSide acc.byDescriptor f
        (normalizePathForOutput repoPath f.path)) f.descriptor f.value = _
      rw [bucketOf_processDescriptorSide, if_pos ⟨rfl, rfl⟩]
    · show (_ || f.isIgnored) = true
      rw [h]
      exact Bool.or_true _
  obtain ⟨e', he', hi'⟩ := hfold
  have hview := bucketOf_assignIds_map (fun q => q.isIgnored) (fun q i => rfl)
    ((l1 ++ f :: l2).foldl (processFinding repoPath)
      { byToken := [], byDescriptor := [] }).byDescriptor f.descriptor f.value
  rw [he'] at hview
  show ∃ e, bucketOf (assignIds ((l1 ++ f :: l2).foldl (processFinding repoPath)
    { byToken := [], byDescriptor := [] }).byDescriptor) f.descriptor f.value = some e
    ∧ e.isIgnored = true
  cases hb : bucketOf (assignIds ((l1 ++ f :: l2).foldl (processFinding repoPath)
      { byToken := [], byDescriptor := [] }).byDescriptor) f.descriptor f.value with
  | none => rw [hb] at hview; exact absurd hview (by simp)
  | some e'' =>
      rw [hb] at hview
      simp only [Option.map_some'] at hview
      refine ⟨e'', rfl, ?_⟩
      rw [Option.some_inj.mp hview, hi']

/-- Witness for C9: the first of two findings for the pair is ignored, the
second is not; the bucket stays ignored. -/
theorem buildUsageAggregates_isIgnored_sticky_witness :
    ({ path := "/p/a.css", descriptor := "margin", value := "0", containsToken := false,
       isIgnored := true, tokens := none : Finding }).isIgnored = true
    ∧ ∃ e, bucketOf (buildUsageAggregates "/p"
        ([] ++ { path := "/p/a.css", descriptor := "margin", value := "0",
                 containsToken := false, isIgnored := true, tokens := none : Finding } ::
          [{ path := "/p/b.css", descriptor := "margin", value := "0",
             containsToken := false, isIgnored := false, tokens := none }])).byDescriptor
        "margin" "0" = some e
      ∧ e.isIgnored = true :=
  ⟨rfl,
   buildUsageAggregates_isIgnored_sticky "/p" []
     [{ path := "/p/b.css", descriptor := "margin", value := "0",
        containsToken := false, isIgnored := false, tokens := none }]
     { path := "/p/a.css", descriptor := "margin", value := "0", containsToken := false,
       isIgnored := true, tokens := none } rfl⟩

/-- The `tokens` field that the bucket creator derives from the first finding
for a pair, as a function of the findings list. -/
def firstFindingTokens (l : List Finding) (d v : String) : Option (Option (List String)) :=
  (l.find? (fun f => decide (f.descriptor = d ∧ f.value = v))).map
    (fun f => (initialValueEntry f).tokens)

theorem bucket_tokens_foldl (repoPath : String) (l : List Finding) :
    ∀ (acc : Aggregates) (d v : String),
      (bucketOf (l.foldl (processFinding repoPath) acc).byDescriptor d v).map
          (fun q => q.tokens)
        = match bucketOf acc.byDescriptor d v with
          | some e => some e.tokens
          | none => firstFindingTokens l d v := by
  induction l with
  | nil =>
      intro acc d v
      cases h : bucketOf acc.byDescriptor d v <;> simp [h, firstFindingTokens]
  | cons f rest ih =>
      intro acc d v
      rw [List.foldl_cons, ih]
      by_cases hpair : f.descriptor = d ∧ f.value = v
      · have hb : bucketOf (processFinding repoPath acc f).byDescriptor d v
            = some (bumpValueEntry ((bucketOf acc.byDescriptor d v).getD
                (initialValueEntry f)) f (normalizePathForOutput repoPath f.path)) := by
          show bucketOf (processDescriptorSide acc.byDescriptor f
            (normalizePathForOutput repoPath f.path)) d v = _
          rw [bucketOf_processDescriptorSide, if_pos hpair]
        rw [hb]
        cases hacc : bucketOf acc.byDescriptor d v with
        | some e => simp [bumpValueEntry]
        | none =>
            simp only [Option.getD_none]
            have hfind : firstFindingTokens (f :: rest) d v
                = some (initialValueEntry f).tokens := by
              unfold firstFindingTokens
              rw [List.find?_cons_of_pos _ (by simp [hpair.1, hpair.2])]
              rfl
            rw [hfind]
            simp [bumpValueEntry]
      · have hb : bucketOf (processFinding repoPath acc f).byDescriptor d v
            = bucketOf acc.byDescriptor d v := by
          show bucketOf (processDescriptorSide acc.byDescriptor f
            (normalizePathForOutput repoPath f.path)) d v = _
          rw [bucketOf_processDescriptorSide, if_neg hpair]
        rw [hb]
        cases hacc : bucketOf acc.byDescriptor d v with
        | some e => rfl
        | none =>
            have hfind : firstFindingTokens (f :: rest) d v = firstFindingTokens rest d v := by
              unfold firstFindingTokens
              rw [List.find?_cons_of_neg _ (by simpa using hpair)]
            rw [hfind]

/-- C5 (amended): a `(descriptor, value)` bucket of `buildUsageAggregates`
carries a `tokens` field exactly when the finding that created the bucket —
the first finding for that pair — carried a non-empty tokens list; tokens on
later findings for the same pair are not attached. -/
theorem buildUsageAggregates_tokens_spec (repoPath : String) (l : List Finding)
    (d v : String) :
    (bucketOf (buildUsageAggregates repoPath l).byDescriptor d v).map (fun q => q.tokens)
      = firstFindingTokens l d v := by
  show (bucketOf (assignIds (l.foldl (processFinding repoPath)
    { byToken := [], byDescriptor := [] }).byDescriptor) d v).map (fun q => q.tokens) = _
  rw [bucketOf_assignIds_map (fun q => q.tokens) (fun q i => rfl)]
  rw [bucket_tokens_foldl repoPath l { byToken := [], byDescriptor := [] } d v]
  rfl

/-- C5 (counterexample): the second finding for the pair
`("color", "var(--x)")` carries a non-empty tokens list, but because the
first finding for that pair carried none, the bucket has no `tokens`
field. -/
theorem buildUsageAggregates_tokens_first_only_cex :
    ({ path := "/p/b.css", descriptor := "color", value := "var(--x)",
       containsToken := true, isIgnored := false,
       tokens := some ["--color-accent-primary"] : Finding }).tokens
        = some ["--color-accent-primary"]
    ∧ (bucketOf (buildUsageAggregates "/p"
        [{ path := "/p/a.css", descriptor := "color", value := "var(--x)",
           containsToken := false, isIgnored := false, tokens := none },
         { path := "/p/b.css", descriptor := "color", value := "var(--x)",
           containsToken := true, isIgnored := false,
           tokens := some ["--color-accent-primary"] }]).byDescriptor
        "color" "var(--x)").map (fun q => q.tokens)
      = some none := by
  exact ⟨rfl, by decide⟩

/-! ## Token-centric invariants (C10) -/

def sumCounts (m : List (String × Nat)) : Nat := (m.map Prod.snd).sum

@[simp] theorem sumCounts_nil : sumCounts [] = 0 := rfl

@[simp] theorem sumCounts_cons (p : String × Nat) (rest : List (String × Nat)) :
    sumCounts (p :: rest) = p.2 + sumCounts rest := by
  simp [sumCounts]

theorem sumCounts_append (m₁ m₂ : List (String × Nat)) :
    sumCounts (m₁ ++ m₂) = sumCounts m₁ + sumCounts m₂ := by
  simp [sumCounts]

theorem sumCounts_mapAtKey_add_one (m : List (String × Nat)) (k : String)
    (hnd : (keysOf m).Nodup) (hmem : k ∈ keysOf m) :
    sumCounts (mapAtKey m k (fun n => n + 1)) = sumCounts m + 1 := by
  induction m with
  | nil => cases hmem
  | cons p rest ih =>
      obtain ⟨k0, n0⟩ := p
      rw [keysOf_cons, List.nodup_cons] at hnd
      rw [mapAtKey_cons]
      rcases List.mem_cons.mp hmem with h0 | hmt
      · rw [if_pos h0.symm, mapAtKey_of_not_mem rest k _ (by rw [h0]; exact hnd.1)]
        rw [sumCounts_cons, sumCounts_cons]
        omega
      · by_cases h0 : k0 = k
        · rw [h0] at hnd
          exact absurd hmt hnd.1
        · rw [if_neg h0, sumCounts_cons, sumCounts_cons, ih hnd.2 hmt]
          omega

theorem sumCounts_bumpCount (m : List (String × Nat)) (k : String)
    (hnd : (keysOf m).Nodup) : sumCounts (bumpCount m k) = sumCounts m + 1 := by
  unfold bumpCount
  cases h : lookupKey m k with
  | some n => exact sumCounts_mapAtKey_add_one m k hnd (mem_keys_of_lookupKey h)
  | none => simp [sumCounts_append]

theorem keysOf_bumpCount_nodup (m : List (String × Nat)) (k : String)
    (hnd : (keysOf m).Nodup) : (keysOf (bumpCount m k)).Nodup := by
  unfold bumpCount
  cases h : lookupKey m k with
  | some n => simpa using hnd
  | none =>
      rw [keysOf_append, List.nodup_append]
      refine ⟨hnd, List.nodup_singleton k, ?_⟩
      intro a ha hb
      simp [keysOf] at hb
      subst hb
      exact ((lookupKey_eq_none_iff m a).mp h) ha

theorem countsPos_mapAtKey (m : List (String × Nat)) (k : String)
    (hpos : ∀ p ∈ m, 1 ≤ p.2) : ∀ p ∈ mapAtKey m k (fun n => n + 1), 1 ≤ p.2 := by
  intro p hp
  unfold mapAtKey at hp
  obtain ⟨q, hq, hqe⟩ := List.mem_map.mp hp
  by_cases hk : q.1 = k
  · rw [if_pos hk] at hqe
    have h1 := hpos q hq
    rw [← hqe]
    simpa using Nat.le_succ_of_le h1
  · rw [if_neg hk] at hqe
    rw [← hqe]
    exact hpos q hq

theorem countsPos_bumpCount (m : List (String × Nat)) (k : String)
    (hpos : ∀ p ∈ m, 1 ≤ p.2) : ∀ p ∈ bumpCount m k, 1 ≤ p.2 := by
  unfold bumpCount
  cases h : lookupKey m k with
  | some n => exact countsPos_mapAtKey m k hpos
  | none =>
      intro p hp
      rcases List.mem_append.mp hp with hm | hs
      · exact hpos p hm
      · rw [List.mem_singleton] at hs
        subst hs
        exact le_refl 1

/-- The shape invariant of one token entry: the total equals the sum of the
per-file counts and the sum of the per-descriptor counts, all counts are
positive, and the counter maps have unique keys. -/
def tokenEntryInv (e : TokenEntry) : Prop :=
  e.total = sumCounts e.files ∧ e.total = sumCounts e.descriptors
    ∧ (∀ p ∈ e.files, 1 ≤ p.2) ∧ (∀ p ∈ e.descriptors, 1 ≤ p.2)
    ∧ (keysOf e.files).Nodup ∧ (keysOf e.descriptors).Nodup

def tokenMapInv (m : List (String × TokenEntry)) : Prop :=
  (keysOf m).Nodup ∧ ∀ t e, lookupKey m t = some e → tokenEntryInv e

theorem tokenMapInv_nil : tokenMapInv [] :=
  ⟨List.nodup_nil, fun t e h => by cases h⟩

theorem tokenEntryInv_zero :
    tokenEntryInv { total := 0, files := [], descriptors := [] } := by
  refine ⟨rfl, rfl, ?_, ?_, List.nodup_nil, List.nodup_nil⟩
  · intro p hp
    cases hp
  · intro p hp
    cases hp

theorem addTokenOccurrence_inv (m : List (String × TokenEntry))
    (tokenId relPath descriptor : String) (hm : tokenMapInv m) :
    tokenMapInv (addTokenOccurrence m tokenId relPath descriptor) := by
  obtain ⟨hnd, hent⟩ := hm
  have hm1 : tokenMapInv
      (match lookupKey m tokenId with
       | some _ => m
       | none => m ++ [(tokenId, { total := 0, files := [], descriptors := [] })])
      ∧ tokenId ∈ keysOf
      (match lookupKey m tokenId with
       | some _ => m
       | none => m ++ [(tokenId, { total := 0, files := [], descriptors := [] })])
      ∧ ∀ e, lookupKey
      (match lookupKey m tokenId with
       | some _ => m
       | none => m ++ [(tokenId, { total := 0, files := [], descriptors := [] })])
      tokenId = some e → tokenEntryInv e := by
    cases h : lookupKey m tokenId with
    | some e =>
        exact ⟨⟨hnd, hent⟩, mem_keys_of_lookupKey h, fun e' h' => hent tokenId e' h'⟩
    | none =>
        refine ⟨⟨?_, ?_⟩, ?_, ?_⟩
        · rw [keysOf_append, List.nodup_append]
          refine ⟨hnd, List.nodup_singleton _, ?_⟩
          intro a ha hb
          simp [keysOf] at hb
          subst hb
          exact ((lookupKey_eq_none_iff m a).mp h) ha
        · intro t e' h'
          rw [lookupKey_append] at h'
          cases ht : lookupKey m t with
          | some e0 =>
              rw [ht] at h'
              exact hent t e' (by rw [ht, ← h'])
          | none =>
              rw [ht] at h'
              simp only [lookupKey_cons, lookupKey_nil] at h'
              by_cases hte : tokenId = t
              · rw [if_pos hte] at h'
                exact Option.some_inj.mp h' ▸ tokenEntryInv_zero
              · rw [if_neg hte] at h'
                cases h'
        · rw [keysOf_append]
          exact List.mem_append_right _ (by simp [keysOf])
        · intro e' h'
          rw [lookupKey_append, h] at h'
          simp only [lookupKey_cons, lookupKey_nil, if_pos rfl] at h'
          exact Option.some_inj.mp h' ▸ tokenEntryInv_zero
  obtain ⟨⟨hnd1, hent1⟩, hmem1, hself1⟩ := hm1
  unfold addTokenOccurrence
  constructor
  · simpa using hnd1
  · intro t e h
    by_cases ht : t = tokenId
    · subst ht
      rw [lookupKey_mapAtKey_self] at h
      cases h0 : lookupKey
          (match lookupKey m t with
           | some _ => m
           | none => m ++ [(t, { total := 0, files := [], descriptors := [] })]) t with
      | none => rw [h0] at h; cases h
      | some e0 =>
          rw [h0] at h
          simp only [Option.map_some'] at h
          obtain ⟨hf, hd, hpf, hpd, hnf, hnd'⟩ := hself1 e0 h0
          refine Option.some_inj.mp h ▸ ?_
          refine ⟨?_, ?_, countsPos_bumpCount _ _ hpf, countsPos_bumpCount _ _ hpd,
            keysOf_bumpCount_nodup _ _ hnf, keysOf_bumpCount_nodup _ _ hnd'⟩
          · show e0.total + 1 = sumCounts (bumpCount e0.files relPath)
            rw [sumCounts_bumpCount _ _ hnf, hf]
          · show e0.total + 1 = sumCounts (bumpCount e0.descriptors descriptor)
            rw [sumCounts_bumpCount _ _ hnd', hd]
    · rw [lookupKey_mapAtKey_ne _ _ _ _ ht] at h
      exact hent1 t e h

theorem processTokenSide_inv (m : List (String × TokenEntry)) (f : Finding)
    (relPath : String) (hm : tokenMapInv m) :
    tokenMapInv (processTokenSide m f relPath) := by
  unfold processTokenSide
  cases f.tokens with
  | none => exact hm
  | some ts =>
      induction ts generalizing m with
      | nil => exact hm
      | cons t rest ih =>
          exact ih (addTokenOccurrence m t relPath f.descriptor)
            (addTokenOccurrence_inv m t relPath f.descriptor hm)

theorem foldl_processFinding_tokenInv (repoPath : String) (l : List Finding) :
    ∀ acc : Aggregates, tokenMapInv acc.byToken →
      tokenMapInv (l.foldl (processFinding repoPath) acc).byToken := by
  induction l with
  | nil => exact fun acc h => h
  | cons f rest ih =>
      intro acc h
      rw [List.foldl_cons]
      exact ih (processFinding repoPath acc f)
        (processTokenSide_inv acc.byToken f (normalizePathForOutput repoPath f.path) h)

/-- C10: every entry of `tokenUsage.byToken` has `total` equal to the sum of
its per-file counts and to the sum of its per-descriptor counts, and every
individual count in `files` and `descriptors` is at least 1. -/
theorem buildUsageAggregates_token_totals (repoPath : String) (l : List Finding)
    (t : String) (e : TokenEntry)
    (h : lookupKey (buildUsageAggregates repoPath l).byToken t = some e) :
    e.total = sumCounts e.files ∧ e.total = sumCounts e.descriptors
    ∧ (∀ p ∈ e.files, 1 ≤ p.2) ∧ (∀ p ∈ e.descriptors, 1 ≤ p.2) := by
  have hinv := foldl_processFinding_tokenInv repoPath l
    { byToken := [], byDescriptor := [] } tokenMapInv_nil
  have he := hinv.2 t e h
  exact ⟨he.1, he.2.1, he.2.2.1, he.2.2.2.1⟩

/-- Witness for C10 at a run with one finding carrying the same token twice
in one declaration and another finding carrying it once. -/
theorem buildUsageAggregates_token_totals_witness :
    lookupKey (buildUsageAggregates "/p"
        [{ path := "/p/a.css", descriptor := "border-color", value := "var(--a) var(--a)",
           containsToken := true, isIgnored := false,
           tokens := some ["--color-accent-primary", "--color-accent-primary"] },
         { path := "/p/b.css", descriptor := "color", value := "var(--a)",
           containsToken := true, isIgnored := false,
           tokens := some ["--color-accent-primary"] }]).byToken
      "--color-accent-primary"
      = some (TokenEntry.mk 3 [("a.css", 2), ("b.css", 1)]
          [("border-color", 2), ("color", 1)])
    ∧ (TokenEntry.mk 3 [("a.css", 2), ("b.css", 1)]
        [("border-color", 2), ("color", 1)]).total
        = sumCounts (TokenEntry.mk 3 [("a.css", 2), ("b.css", 1)]
            [("border-color", 2), ("color", 1)]).files :=
  ⟨by decide,
   (buildUsageAggregates_token_totals "/p"
      [{ path := "/p/a.css", descriptor := "border-color", value := "var(--a) var(--a)",
         containsToken := true, isIgnored := false,
         tokens := some ["--color-accent-primary", "--color-accent-primary"] },
       { path := "/p/b.css", descriptor := "color", value := "var(--a)",
         containsToken := true, isIgnored := false,
         tokens := some ["--color-accent-primary"] }]
      "--color-accent-primary"
      (TokenEntry.mk 3 [("a.css", 2), ("b.css", 1)] [("border-color", 2), ("color", 1)])
      (by decide)).1⟩

/-! ## ID assignment characterization (C3)

`descriptorSchedule` is the specification-side description of the ID pass: it
walks the (sorted) descriptor names, hands each descriptor the next state of
one shared counter, hands its (sorted) distinct values the following states,
and continues with the counter advanced past them. -/

def descIdIn (m : List (String × DescriptorEntry)) (d : String) : Option String :=
  (lookupKey m d).bind (fun e => e.id)

def valIdIn (m : List (String × DescriptorEntry)) (d v : String) : Option String :=
  (bucketOf m d v).bind (fun q => q.id)

def scheduleVals : List String → Nat → List (String × String)
  | [], _ => []
  | v :: vs, n => (v, toString n) :: scheduleVals vs (n + 1)

def descriptorSchedule : List (String × List String) → Nat →
    List (String × (String × List (String × String)))
  | [], _ => []
  | (d, vs) :: rest, n =>
      (d, (toString n, scheduleVals vs (n + 1))) :: descriptorSchedule rest (n + 1 + vs.length)

def pairsOfNames (m : List (String × DescriptorEntry)) (names : List String) :
    List (String × List String) :=
  names.map (fun d => (d, sortStr (valueKeysOf m d)))

/-- The sorted descriptor/value key structure of a run's descriptor-centric
aggregate (before the ID pass). -/
def aggPairs (repoPath : String) (l : List Finding) : List (String × List String) :=
  let m := (l.foldl (processFinding repoPath)
    { byToken := [], byDescriptor := [] }).byDescriptor
  pairsOfNames m (sortStr (keysOf m))

theorem keysOf_setDescriptorId (m : List (String × DescriptorEntry)) (d i : String) :
    keysOf (setDescriptorId m d i) = keysOf m :=
  keysOf_mapAtKey m d _

theorem keysOf_setValueId (m : List (String × DescriptorEntry)) (d v i : String) :
    keysOf (setValueId m d v i) = keysOf m :=
  keysOf_mapAtKey m d _

theorem valueKeysOf_setDescriptorId (m : List (String × DescriptorEntry)) (d i d' : String) :
    valueKeysOf (setDescriptorId m d i) d' = valueKeysOf m d' := by
  unfold valueKeysOf setDescriptorId
  by_cases h : d' = d
  · subst h
    rw [lookupKey_mapAtKey_self]
    cases he : lookupKey m d' <;> simp [he]
  · rw [lookupKey_mapAtKey_ne _ _ _ _ h]

theorem valueKeysOf_setValueId (m : List (String × DescriptorEntry)) (d v i d' : String) :
    valueKeysOf (setValueId m d v i) d' = valueKeysOf m d' := by
  unfold valueKeysOf setValueId
  by_cases h : d' = d
  · subst h
    rw [lookupKey_mapAtKey_self]
    cases he : lookupKey m d' <;> simp [he]
  · rw [lookupKey_mapAtKey_ne _ _ _ _ h]

theorem descIdIn_setDescriptorId_self (m : List (String × DescriptorEntry)) (d i : String)
    (hd : d ∈ keysOf m) : descIdIn (setDescriptorId m d i) d = some i := by
  obtain ⟨e, he⟩ := Option.isSome_iff_exists.mp ((lookupKey_isSome_iff m d).mpr hd)
  unfold descIdIn setDescriptorId
  rw [lookupKey_mapAtKey_self, he]
  rfl

theorem descIdIn_setDescriptorId_ne (m : List (String × DescriptorEntry)) (d i d' : String)
    (h : d' ≠ d) : descIdIn (setDescriptorId m d i) d' = descIdIn m d' := by
  unfold descIdIn setDescriptorId
  rw [lookupKey_mapAtKey_ne _ _ _ _ h]

theorem valIdIn_setDescriptorId (m : List (String × DescriptorEntry)) (d i d' v' : String) :
    valIdIn (setDescriptorId m d i) d' v' = valIdIn m d' v' := by
  unfold valIdIn
  rw [show bucketOf (setDescriptorId m d i) d' v' = bucketOf m d' v' from
    bucketOf_setDescriptorId m d i d' v']

theorem descIdIn_setValueId (m : List (String × DescriptorEntry)) (d v i d' : String) :
    descIdIn (setValueId m d v i) d' = descIdIn m d' := by
  unfold descIdIn setValueId
  by_cases h : d' = d
  · subst h
    rw [lookupKey_mapAtKey_self]
    cases he : lookupKey m d' <;> simp [he]
  · rw [lookupKey_mapAtKey_ne _ _ _ _ h]

theorem valIdIn_setValueId_self (m : List (String × DescriptorEntry)) (d v i : String)
    (hd : d ∈ keysOf m) (hv : v ∈ valueKeysOf m d) :
    valIdIn (setValueId m d v i) d v = some i := by
  obtain ⟨e, he⟩ := Option.isSome_iff_exists.mp ((lookupKey_isSome_iff m d).mpr hd)
  have hv' : v ∈ keysOf e.values := by
    unfold valueKeysOf at hv
    rw [he] at hv
    exact hv
  obtain ⟨q, hq⟩ := Option.isSome_iff_exists.mp ((lookupKey_isSome_iff e.values v).mpr hv')
  unfold valIdIn bucketOf setValueId
  rw [lookupKey_mapAtKey_self, he]
  simp only [Option.map_some', Option.some_bind]
  rw [lookupKey_mapAtKey_self, hq]
  rfl

theorem valIdIn_setValueId_ne (m : List (String × DescriptorEntry)) (d v i d' v' : String)
    (h : ¬ (d' = d ∧ v' = v)) :
    valIdIn (setValueId m d v i) d' v' = valIdIn m d' v' := by
  unfold valIdIn bucketOf setValueId
  by_cases hd : d' = d
  · subst hd
    have hv : v' ≠ v := fun hc => h ⟨rfl, hc⟩
    rw [lookupKey_mapAtKey_self]
    cases he : lookupKey m d' with
    | none => rfl
    | some e =>
        simp only [Option.map_some', Option.some_bind]
        rw [lookupKey_mapAtKey_ne _ _ _ _ hv]
  · rw [lookupKey_mapAtKey_ne _ _ _ _ hd]

theorem assignValueIds_snd (vs : List String) :
    ∀ (m : List (String × DescriptorEntry)) (d : String) (n : Nat),
      (assignValueIds m d vs n).2 = n + vs.length := by
  induction vs with
  | nil => intro m d n; rfl
  | cons v vs ih =>
      intro m d n
      show (assignValueIds (setValueId m d v (toString n)) d vs (n + 1)).2 = _
      rw [ih]
      simp [List.length_cons]
      omega

theorem keysOf_assignValueIds (vs : List String) :
    ∀ (m : List (String × DescriptorEntry)) (d : String) (n : Nat),
      keysOf (assignValueIds m d vs n).1 = keysOf m := by
  induction vs with
  | nil => intro m d n; rfl
  | cons v vs ih =>
      intro m d n
      show keysOf (assignValueIds (setValueId m d v (toString n)) d vs (n + 1)).1 = _
      rw [ih, keysOf_setValueId]

theorem valueKeysOf_assignValueIds (vs : List String) :
    ∀ (m : List (String × DescriptorEntry)) (d : String) (n : Nat) (d' : String),
      valueKeysOf (assignValueIds m d vs n).1 d' = valueKeysOf m d' := by
  induction vs with
  | nil => intro m d n d'; rfl
  | cons v vs ih =>
      intro m d n d'
      show valueKeysOf (assignValueIds (setValueId m d v (toString n)) d vs (n + 1)).1 d' = _
      rw [ih, valueKeysOf_setValueId]

theorem descIdIn_assignValueIds (vs : List String) :
    ∀ (m : List (String × DescriptorEntry)) (d : String) (n : Nat) (d' : String),
      descIdIn (assignValueIds m d vs n).1 d' = descIdIn m d' := by
  induction vs with
  | nil => intro m d n d'; rfl
  | cons v vs ih =>
      intro m d n d'
      show descIdIn (assignValueIds (setValueId m d v (toString n)) d vs (n + 1)).1 d' = _
      rw [ih, descIdIn_setValueId]

@[simp] theorem scheduleVals_nil (n : Nat) : scheduleVals [] n = [] := rfl

@[simp] theorem scheduleVals_cons (v : String) (vs : List String) (n : Nat) :
    scheduleVals (v :: vs) n = (v, toString n) :: scheduleVals vs (n + 1) := rfl

theorem valIdIn_assignValueIds (vs : List String) :
    ∀ (m : List (String × DescriptorEntry)) (d : String) (n : Nat),
      vs.Nodup → d ∈ keysOf m → (∀ v ∈ vs, v ∈ valueKeysOf m d) →
      ∀ d' v', valIdIn (assignValueIds m d vs n).1 d' v'
        = if d' = d ∧ v' ∈ vs then lookupKey (scheduleVals vs n) v' else valIdIn m d' v' := by
  induction vs with
  | nil =>
      intro m d n _ _ _ d' v'
      rw [if_neg (fun hc => by cases hc.2)]
      rfl
  | cons v vs ih =>
      intro m d n hnd hd hsub d' v'
      rw [List.nodup_cons] at hnd
      have hvmem : v ∈ valueKeysOf m d := hsub v (List.mem_cons_self v vs)
      have hih := ih (setValueId m d v (toString n)) d (n + 1) hnd.2
        (by rw [keysOf_setValueId]; exact hd)
        (fun v'' hv'' => by
          rw [valueKeysOf_setValueId]
          exact hsub v'' (List.mem_cons_of_mem v hv''))
        d' v'
      show valIdIn (assignValueIds (setValueId m d v (toString n)) d vs (n + 1)).1 d' v' = _
      rw [hih]
      by_cases hd' : d' = d
      · subst hd'
        by_cases hv' : v' ∈ vs
        · rw [if_pos ⟨rfl, hv'⟩, if_pos ⟨rfl, List.mem_cons_of_mem v hv'⟩,
            scheduleVals_cons, lookupKey_cons,
            if_neg (fun he => hnd.1 (by rw [he]; exact hv'))]
        · rw [if_neg (fun hc => hv' hc.2)]
          by_cases hveq : v' = v
          · subst hveq
            rw [valIdIn_setValueId_self m d' v' (toString n) hd hvmem,
              if_pos ⟨rfl, List.mem_cons_self v' vs⟩, scheduleVals_cons, lookupKey_cons,
              if_pos rfl]
          · have h2 : ¬ (d' = d' ∧ v' ∈ v :: vs) := by
              rintro ⟨-, hc⟩
              rcases List.mem_cons.mp hc with h | h
              · exact hveq h
              · exact hv' h
            rw [if_neg h2]
            exact valIdIn_setValueId_ne m d' v (toString n) d' v' (fun hc => hveq hc.2)
      · rw [if_neg (fun hc => hd' hc.1), if_neg (fun hc => hd' hc.1)]
        exact valIdIn_setValueId_ne m d v (toString n) d' v' (fun hc => hd' hc.1)

theorem keysOf_scheduleVals (vs : List String) :
    ∀ n, keysOf (scheduleVals vs n) = vs := by
  induction vs with
  | nil => intro n; rfl
  | cons v vs ih => intro n; rw [scheduleVals_cons, keysOf_cons, ih]

theorem valIdIn_eq_none_of_not_mem (m : List (String × DescriptorEntry)) (d v : String)
    (h : v ∉ valueKeysOf m d) : valIdIn m d v = none := by
  unfold valIdIn bucketOf
  cases he : lookupKey m d with
  | none => rfl
  | some e =>
      have h' : v ∉ keysOf e.values := by
        simp only [valueKeysOf, he] at h
        exact h
      simp only [Option.some_bind]
      rw [(lookupKey_eq_none_iff e.values v).mpr h']
      rfl

theorem assignIdsLoop_spec (names : List String) :
    ∀ (m : List (String × DescriptorEntry)) (n : Nat),
      names.Nodup → (∀ x ∈ names, x ∈ keysOf m) →
      (∀ d', (valueKeysOf m d').Nodup) →
      ∀ d',
        (descIdIn (assignIdsLoop m names n) d'
          = if d' ∈ names
            then (lookupKey (descriptorSchedule (pairsOfNames m names) n) d').map Prod.fst
            else descIdIn m d')
        ∧ ∀ v', valIdIn (assignIdsLoop m names n) d' v'
          = if d' ∈ names
            then (lookupKey (descriptorSchedule (pairsOfNames m names) n) d').bind
                (fun pr => lookupKey pr.2 v')
            else valIdIn m d' v' := by
  induction names with
  | nil =>
      intro m n _ _ _ d'
      constructor
      · rw [if_neg (fun h => by cases h)]
        rfl
      · intro v'
        rw [if_neg (fun h => by cases h)]
        rfl
  | cons d rest ih =>
      intro m n hnd hsub hvnd d'
      rw [List.nodup_cons] at hnd
      have hdm : d ∈ keysOf m := hsub d (List.mem_cons_self d rest)
      have hloop : assignIdsLoop m (d :: rest) n
          = assignIdsLoop (assignValueIds (setDescriptorId m d (toString n)) d
              (sortStr (valueKeysOf (setDescriptorId m d (toString n)) d)) (n + 1)).1 rest
            (assignValueIds (setDescriptorId m d (toString n)) d
              (sortStr (valueKeysOf (setDescriptorId m d (toString n)) d)) (n + 1)).2 := rfl
      rw [valueKeysOf_setDescriptorId m d (toString n) d] at hloop
      set vs := sortStr (valueKeysOf m d) with hvsdef
      set m1 := setDescriptorId m d (toString n) with hm1def
      set r := assignValueIds m1 d vs (n + 1) with hrdef
      have hvsnd : vs.Nodup := by
        rw [hvsdef]
        exact ((List.perm_insertionSort _ _).nodup_iff).mpr (hvnd d)
      have hvsmem : ∀ v, v ∈ vs ↔ v ∈ valueKeysOf m d := by
        intro v
        rw [hvsdef]
        exact (List.perm_insertionSort _ _).mem_iff
      have hdm1 : d ∈ keysOf m1 := by
        rw [hm1def, keysOf_setDescriptorId]
        exact hdm
      have hsubv : ∀ v ∈ vs, v ∈ valueKeysOf m1 d := by
        intro v hv
        rw [hm1def, valueKeysOf_setDescriptorId]
        exact (hvsmem v).mp hv
      have hkeys1 : keysOf r.1 = keysOf m := by
        rw [hrdef, keysOf_assignValueIds, hm1def, keysOf_setDescriptorId]
      have hvk1 : ∀ d'', valueKeysOf r.1 d'' = valueKeysOf m d'' := by
        intro d''
        rw [hrdef, valueKeysOf_assignValueIds, hm1def, valueKeysOf_setDescriptorId]
      have hn2 : r.2 = n + 1 + vs.length := by
        rw [hrdef, assignValueIds_snd]
      have hdesc1 : ∀ d'', descIdIn r.1 d''
          = if d'' = d then some (toString n) else descIdIn m d'' := by
        intro d''
        rw [hrdef, descIdIn_assignValueIds]
        by_cases h : d'' = d
        · subst h
          rw [if_pos rfl, hm1def]
          exact descIdIn_setDescriptorId_self m d'' (toString n) hdm
        · rw [if_neg h, hm1def]
          exact descIdIn_setDescriptorId_ne m d (toString n) d'' h
      have hval1 : ∀ d'' v'', valIdIn r.1 d'' v''
          = if d'' = d ∧ v'' ∈ vs then lookupKey (scheduleVals vs (n + 1)) v''
            else valIdIn m d'' v'' := by
        intro d'' v''
        rw [hrdef, valIdIn_assignValueIds vs m1 d (n + 1) hvsnd hdm1 hsubv]
        by_cases h : d'' = d ∧ v'' ∈ vs
        · rw [if_pos h, if_pos h]
        · rw [if_neg h, if_neg h, hm1def, valIdIn_setDescriptorId]
      have hpairs : pairsOfNames r.1 rest = pairsOfNames m rest := by
        unfold pairsOfNames
        exact List.map_congr_left (fun a _ => by rw [hvk1])
      have hsched : descriptorSchedule (pairsOfNames m (d :: rest)) n
          = (d, (toString n, scheduleVals vs (n + 1)))
            :: descriptorSchedule (pairsOfNames m rest) (n + 1 + vs.length) := rfl
      have IH := ih r.1 r.2 hnd.2
        (fun x hx => by rw [hkeys1]; exact hsub x (List.mem_cons_of_mem d hx))
        (fun d'' => by rw [hvk1]; exact hvnd d'')
      rw [hloop]
      by_cases hd' : d' = d
      · subst hd'
        have hnotmem : d' ∉ rest := hnd.1
        constructor
        · rw [(IH d').1, if_neg hnotmem, hdesc1, if_pos rfl,
            if_pos (List.mem_cons_self d' rest), hsched, lookupKey_cons, if_pos rfl]
          rfl
        · intro v'
          rw [(IH d').2 v', if_neg hnotmem, hval1,
            if_pos (List.mem_cons_self d' rest), hsched, lookupKey_cons, if_pos rfl]
          simp only [Option.some_bind, eq_self_iff_true, true_and]
          by_cases hv : v' ∈ vs
          · rw [if_pos hv]
          · rw [if_neg hv]
            have hnone : lookupKey (scheduleVals vs (n + 1)) v' = none :=
              (lookupKey_eq_none_iff _ _).mpr (by rw [keysOf_scheduleVals]; exact hv)
            rw [hnone, valIdIn_eq_none_of_not_mem m d' v'
              (fun hm => hv ((hvsmem v').mpr hm))]
      · by_cases hrest : d' ∈ rest
        · constructor
          · rw [(IH d').1, if_pos hrest, if_pos (List.mem_cons_of_mem d hrest), hpairs,
              hsched, lookupKey_cons, if_neg (fun he => hd' he.symm), hn2]
          · intro v'
            rw [(IH d').2 v', if_pos hrest, if_pos (List.mem_cons_of_mem d hrest), hpairs,
              hsched, lookupKey_cons, if_neg (fun he => hd' he.symm), hn2]
        · have hnmem : d' ∉ d :: rest := by
            rw [List.mem_cons]
            rintro (h | h)
            · exact hd' h
            · exact hrest h
          constructor
          · rw [(IH d').1, if_neg hrest, if_neg hnmem, hdesc1, if_neg hd']
          · intro v'
            rw [(IH d').2 v', if_neg hrest, if_neg hnmem, hval1,
              if_neg (fun hc => hd' hc.1)]

theorem valueKeysOf_eq_getD (m : List (String × DescriptorEntry)) (d : String) :
    valueKeysOf m d = keysOf ((lookupKey m d).getD { id := none, values := [] }).values := by
  unfold valueKeysOf
  cases h : lookupKey m d <;> simp [h]

theorem keysOf_touchDescriptor (m : List (String × DescriptorEntry)) (d : String) :
    keysOf (touchDescriptor m d)
      = if d ∈ keysOf m then keysOf m else keysOf m ++ [d] := by
  unfold touchDescriptor
  cases h : lookupKey m d with
  | some e => rw [if_pos (mem_keys_of_lookupKey h)]
  | none =>
      rw [if_neg ((lookupKey_eq_none_iff m d).mp h), keysOf_append]
      rfl

theorem keysOf_processDescriptorSide (m : List (String × DescriptorEntry)) (f : Finding)
    (relPath : String) :
    keysOf (processDescriptorSide m f relPath) = keysOf (touchDescriptor m f.descriptor) :=
  keysOf_mapAtKey _ _ _

theorem mem_keysOf_processDescriptorSide (m : List (String × DescriptorEntry)) (f : Finding)
    (relPath d : String) :
    d ∈ keysOf (processDescriptorSide m f relPath)
      ↔ d ∈ keysOf m ∨ d = f.descriptor := by
  rw [keysOf_processDescriptorSide, keysOf_touchDescriptor]
  by_cases h : f.descriptor ∈ keysOf m
  · rw [if_pos h]
    constructor
    · exact fun hm => Or.inl hm
    · rintro (hm | rfl)
      · exact hm
      · exact h
  · rw [if_neg h, List.mem_append, List.mem_singleton]

theorem nodup_keysOf_processDescriptorSide (m : List (String × DescriptorEntry)) (f : Finding)
    (relPath : String) (hnd : (keysOf m).Nodup) :
    (keysOf (processDescriptorSide m f relPath)).Nodup := by
  rw [keysOf_processDescriptorSide, keysOf_touchDescriptor]
  by_cases h : f.descriptor ∈ keysOf m
  · rw [if_pos h]
    exact hnd
  · rw [if_neg h, List.nodup_append]
    refine ⟨hnd, List.nodup_singleton _, ?_⟩
    intro a ha hb
    rw [List.mem_singleton] at hb
    subst hb
    exact h ha

theorem keysOf_values_touchValue (e : DescriptorEntry) (f : Finding) :
    keysOf (touchValue e f).values
      = if f.value ∈ keysOf e.values then keysOf e.values
        else keysOf e.values ++ [f.value] := by
  unfold touchValue
  cases h : lookupKey e.values f.value with
  | some q => rw [if_pos (mem_keys_of_lookupKey h)]
  | none =>
      rw [if_neg ((lookupKey_eq_none_iff _ _).mp h)]
      simp only [keysOf_append]
      rfl

theorem valueKeysOf_processDescriptorSide (m : List (String × DescriptorEntry)) (f : Finding)
    (relPath d : String) :
    valueKeysOf (processDescriptorSide m f relPath) d
      = if f.descriptor = d then
          (if f.value ∈ valueKeysOf m d then valueKeysOf m d
           else valueKeysOf m d ++ [f.value])
        else valueKeysOf m d := by
  by_cases hd : f.descriptor = d
  · subst hd
    rw [if_pos rfl]
    rw [valueKeysOf_eq_getD, valueKeysOf_eq_getD]
    unfold processDescriptorSide
    rw [lookupKey_mapAtKey_self, lookupKey_touchDescriptor_self]
    simp only [Option.map_some', Option.getD_some]
    unfold updateDescriptorEntry
    simp only
    rw [show keysOf (mapAtKey (touchValue ((lookupKey m f.descriptor).getD
        { id := none, values := [] }) f).values f.value
        (fun q => bumpValueEntry q f relPath)) = keysOf (touchValue ((lookupKey m
        f.descriptor).getD { id := none, values := [] }) f).values from
      keysOf_mapAtKey _ _ _]
    rw [keysOf_values_touchValue]
  · rw [if_neg hd, valueKeysOf_eq_getD, valueKeysOf_eq_getD]
    unfold processDescriptorSide
    rw [lookupKey_mapAtKey_ne _ _ _ _ (fun hc => hd hc.symm),
      lookupKey_touchDescriptor_ne _ _ _ (fun hc => hd hc.symm)]

theorem mem_valueKeysOf_processDescriptorSide (m : List (String × DescriptorEntry))
    (f : Finding) (relPath d v : String) :
    v ∈ valueKeysOf (processDescriptorSide m f relPath) d
      ↔ v ∈ valueKeysOf m d ∨ (f.descriptor = d ∧ f.value = v) := by
  rw [valueKeysOf_processDescriptorSide]
  by_cases hd : f.descriptor = d
  · rw [if_pos hd]
    by_cases hv : f.value ∈ valueKeysOf m d
    · rw [if_pos hv]
      constructor
      · exact fun hm => Or.inl hm
      · rintro (hm | ⟨-, rfl⟩)
        · exact hm
        · exact hv
    · rw [if_neg hv, List.mem_append, List.mem_singleton]
      constructor
      · rintro (hm | rfl)
        · exact Or.inl hm
        · exact Or.inr ⟨hd, rfl⟩
      · rintro (hm | ⟨-, rfl⟩)
        · exact Or.inl hm
        · exact Or.inr rfl
  · rw [if_neg hd]
    constructor
    · exact fun hm => Or.inl hm
    · rintro (hm | ⟨hc, -⟩)
      · exact hm
      · exact absurd hc hd

theorem nodup_valueKeysOf_processDescriptorSide (m : List (String × DescriptorEntry))
    (f : Finding) (relPath : String) (hnd : ∀ d, (valueKeysOf m d).Nodup) :
    ∀ d, (valueKeysOf (processDescriptorSide m f relPath) d).Nodup := by
  intro d
  rw [valueKeysOf_processDescriptorSide]
  by_cases hd : f.descriptor = d
  · rw [if_pos hd]
    by_cases hv : f.value ∈ valueKeysOf m d
    · rw [if_pos hv]
      exact hnd d
    · rw [if_neg hv, List.nodup_append]
      refine ⟨hnd d, List.nodup_singleton _, ?_⟩
      intro a ha hb
      rw [List.mem_singleton] at hb
      subst hb
      exact hv ha
  · rw [if_neg hd]
    exact hnd d

theorem foldl_processFinding_descriptor_nodup (repoPath : String) (l : List Finding) :
    ∀ acc : Aggregates, (keysOf acc.byDescriptor).Nodup →
      (∀ d, (valueKeysOf acc.byDescriptor d).Nodup) →
      (keysOf (l.foldl (processFinding repoPath) acc).byDescriptor).Nodup
      ∧ ∀ d, (valueKeysOf (l.foldl (processFinding repoPath) acc).byDescriptor d).Nodup := by
  induction l with
  | nil => exact fun acc h1 h2 => ⟨h1, h2⟩
  | cons f rest ih =>
      intro acc h1 h2
      rw [List.foldl_cons]
      exact ih (processFinding repoPath acc f)
        (nodup_keysOf_processDescriptorSide acc.byDescriptor f _ h1)
        (nodup_valueKeysOf_processDescriptorSide acc.byDescriptor f _ h2)

theorem mem_keysOf_foldl_processFinding (repoPath : String) (l : List Finding) :
    ∀ (acc : Aggregates) (d : String),
      d ∈ keysOf (l.foldl (processFinding repoPath) acc).byDescriptor
        ↔ d ∈ keysOf acc.byDescriptor ∨ ∃ f ∈ l, f.descriptor = d := by
  induction l with
  | nil =>
      intro acc d
      simp
  | cons f rest ih =>
      intro acc d
      rw [List.foldl_cons, ih]
      rw [show (processFinding repoPath acc f).byDescriptor
        = processDescriptorSide acc.byDescriptor f
            (normalizePathForOutput repoPath f.path) from rfl]
      rw [mem_keysOf_processDescriptorSide]
      constructor
      · rintro ((hm | hfd) | ⟨g, hg, hgd⟩)
        · exact Or.inl hm
        · exact Or.inr ⟨f, List.mem_cons_self f rest, hfd.symm⟩
        · exact Or.inr ⟨g, List.mem_cons_of_mem f hg, hgd⟩
      · rintro (hm | ⟨g, hg, hgd⟩)
        · exact Or.inl (Or.inl hm)
        · rcases List.mem_cons.mp hg with rfl | hgr
          · exact Or.inl (Or.inr hgd.symm)
          · exact Or.inr ⟨g, hgr, hgd⟩

theorem mem_valueKeysOf_foldl_processFinding (repoPath : String) (l : List Finding) :
    ∀ (acc : Aggregates) (d v : String),
      v ∈ valueKeysOf (l.foldl (processFinding repoPath) acc).byDescriptor d
        ↔ v ∈ valueKeysOf acc.byDescriptor d
          ∨ ∃ f ∈ l, f.descriptor = d ∧ f.value = v := by
  induction l with
  | nil =>
      intro acc d v
      simp
  | cons f rest ih =>
      intro acc d v
      rw [List.foldl_cons, ih]
      rw [show (processFinding repoPath acc f).byDescriptor
        = processDescriptorSide acc.byDescriptor f
            (normalizePathForOutput repoPath f.path) from rfl]
      rw [mem_valueKeysOf_processDescriptorSide]
      constructor
      · rintro ((hm | ⟨hfd, hfv⟩) | ⟨g, hg, hgd⟩)
        · exact Or.inl hm
        · exact Or.inr ⟨f, List.mem_cons_self f rest, hfd, hfv⟩
        · exact Or.inr ⟨g, List.mem_cons_of_mem f hg, hgd⟩
      · rintro (hm | ⟨g, hg, hgd, hgv⟩)
        · exact Or.inl (Or.inl hm)
        · rcases List.mem_cons.mp hg with rfl | hgr
          · exact Or.inl (Or.inr ⟨hgd, hgv⟩)
          · exact Or.inr ⟨g, hgr, hgd, hgv⟩

theorem sortStr_eq_of_mem_iff (l1 l2 : List String) (h1 : l1.Nodup) (h2 : l2.Nodup)
    (h : ∀ a, a ∈ l1 ↔ a ∈ l2) : sortStr l1 = sortStr l2 := by
  have hperm : l1.Perm l2 := (List.perm_ext_iff_of_nodup h1 h2).mpr h
  have hp : (sortStr l1).Perm (sortStr l2) :=
    ((List.perm_insertionSort _ l1).trans hperm).trans
      (List.perm_insertionSort _ l2).symm
  exact List.eq_of_perm_of_sorted hp (List.sorted_insertionSort _ l1)
    (List.sorted_insertionSort _ l2)

theorem keysOf_pairsOfNames (m : List (String × DescriptorEntry)) (names : List String) :
    keysOf (pairsOfNames m names) = names := by
  unfold pairsOfNames keysOf
  rw [List.map_map]
  exact List.map_id names

theorem keysOf_descriptorSchedule (pairs : List (String × List String)) :
    ∀ n, keysOf (descriptorSchedule pairs n) = keysOf pairs := by
  induction pairs with
  | nil => intro n; rfl
  | cons p rest ih =>
      obtain ⟨d, vs⟩ := p
      intro n
      rw [show descriptorSchedule ((d, vs) :: rest) n
        = (d, (toString n, scheduleVals vs (n + 1)))
            :: descriptorSchedule rest (n + 1 + vs.length) from rfl,
        keysOf_cons, keysOf_cons, ih]

theorem nodup_empty_aggregates :
    (keysOf (Aggregates.mk [] []).byDescriptor).Nodup
    ∧ ∀ d, (valueKeysOf (Aggregates.mk [] []).byDescriptor d).Nodup :=
  ⟨List.nodup_nil, fun _ => List.nodup_nil⟩

theorem descriptorIdOf_buildUsageAggregates (repoPath : String) (l : List Finding)
    (d : String) :
    descriptorIdOf (buildUsageAggregates repoPath l) d
      = (lookupKey (descriptorSchedule (aggPairs repoPath l) 0) d).map Prod.fst := by
  have hnd := foldl_processFinding_descriptor_nodup repoPath l (Aggregates.mk [] [])
    nodup_empty_aggregates.1 nodup_empty_aggregates.2
  set B := (l.foldl (processFinding repoPath) (Aggregates.mk [] [])).byDescriptor with hB
  have hnames_nodup : (sortStr (keysOf B)).Nodup :=
    ((List.perm_insertionSort _ _).nodup_iff).mpr hnd.1
  have hnames_mem : ∀ x, x ∈ sortStr (keysOf B) ↔ x ∈ keysOf B :=
    fun x => (List.perm_insertionSort _ _).mem_iff
  have hloop := (assignIdsLoop_spec (sortStr (keysOf B)) B 0 hnames_nodup
    (fun x hx => (hnames_mem x).mp hx) hnd.2 d).1
  show descIdIn (assignIdsLoop B (sortStr (keysOf B)) 0) d = _
  rw [hloop]
  by_cases hmem : d ∈ sortStr (keysOf B)
  · rw [if_pos hmem]
    rfl
  · rw [if_neg hmem]
    have h1 : lookupKey B d = none :=
      (lookupKey_eq_none_iff B d).mpr (fun hc => hmem ((hnames_mem d).mpr hc))
    have h2 : lookupKey (descriptorSchedule (aggPairs repoPath l) 0) d = none := by
      refine (lookupKey_eq_none_iff _ d).mpr ?_
      rw [keysOf_descriptorSchedule]
      rw [show aggPairs repoPath l = pairsOfNames B (sortStr (keysOf B)) from rfl,
        keysOf_pairsOfNames]
      exact hmem
    rw [h2]
    unfold descIdIn
    rw [h1]
    rfl

theorem valueIdOf_buildUsageAggregates (repoPath : String) (l : List Finding)
    (d v : String) :
    valueIdOf (buildUsageAggregates repoPath l) d v
      = (lookupKey (descriptorSchedule (aggPairs repoPath l) 0) d).bind
          (fun pr => lookupKey pr.2 v) := by
  have hnd := foldl_processFinding_descriptor_nodup repoPath l (Aggregates.mk [] [])
    nodup_empty_aggregates.1 nodup_empty_aggregates.2
  set B := (l.foldl (processFinding repoPath) (Aggregates.mk [] [])).byDescriptor with hB
  have hnames_nodup : (sortStr (keysOf B)).Nodup :=
    ((List.perm_insertionSort _ _).nodup_iff).mpr hnd.1
  have hnames_mem : ∀ x, x ∈ sortStr (keysOf B) ↔ x ∈ keysOf B :=
    fun x => (List.perm_insertionSort _ _).mem_iff
  have hloop := (assignIdsLoop_spec (sortStr (keysOf B)) B 0 hnames_nodup
    (fun x hx => (hnames_mem x).mp hx) hnd.2 d).2 v
  show valIdIn (assignIdsLoop B (sortStr (keysOf B)) 0) d v = _
  rw [hloop]
  by_cases hmem : d ∈ sortStr (keysOf B)
  · rw [if_pos hmem]
    rfl
  · rw [if_neg hmem]
    have h1 : lookupKey B d = none :=
      (lookupKey_eq_none_iff B d).mpr (fun hc => hmem ((hnames_mem d).mpr hc))
    have h2 : lookupKey (descriptorSchedule (aggPairs repoPath l) 0) d = none := by
      refine (lookupKey_eq_none_iff _ d).mpr ?_
      rw [keysOf_descriptorSchedule]
      rw [show aggPairs repoPath l = pairsOfNames B (sortStr (keysOf B)) from rfl,
        keysOf_pairsOfNames]
      exact hmem
    rw [h2]
    unfold valIdIn bucketOf
    rw [h1]
    rfl

theorem aggPairs_perm_eq (repoPath : String) (l1 l2 : List Finding) (hp : l1.Perm l2) :
    aggPairs repoPath l1 = aggPairs repoPath l2 := by
  have hnd1 := foldl_processFinding_descriptor_nodup repoPath l1 (Aggregates.mk [] [])
    nodup_empty_aggregates.1 nodup_empty_aggregates.2
  have hnd2 := foldl_processFinding_descriptor_nodup repoPath l2 (Aggregates.mk [] [])
    nodup_empty_aggregates.1 nodup_empty_aggregates.2
  set A1 := (l1.foldl (processFinding repoPath) (Aggregates.mk [] [])).byDescriptor with hA1
  set A2 := (l2.foldl (processFinding repoPath) (Aggregates.mk [] [])).byDescriptor with hA2
  have hkeys : sortStr (keysOf A1) = sortStr (keysOf A2) := by
    refine sortStr_eq_of_mem_iff _ _ hnd1.1 hnd2.1 (fun a => ?_)
    rw [hA1, hA2, mem_keysOf_foldl_processFinding, mem_keysOf_foldl_processFinding]
    constructor
    · rintro (hm | ⟨g, hg, hgd⟩)
      · exact Or.inl hm
      · exact Or.inr ⟨g, hp.subset hg, hgd⟩
    · rintro (hm | ⟨g, hg, hgd⟩)
      · exact Or.inl hm
      · exact Or.inr ⟨g, hp.symm.subset hg, hgd⟩
  show pairsOfNames A1 (sortStr (keysOf A1)) = pairsOfNames A2 (sortStr (keysOf A2))
  rw [← hkeys]
  unfold pairsOfNames
  refine List.map_congr_left (fun d _ => ?_)
  have hv : sortStr (valueKeysOf A1 d) = sortStr (valueKeysOf A2 d) := by
    refine sortStr_eq_of_mem_iff _ _ (hnd1.2 d) (hnd2.2 d) (fun v => ?_)
    rw [hA1, hA2, mem_valueKeysOf_foldl_processFinding,
      mem_valueKeysOf_foldl_processFinding]
    constructor
    · rintro (hm | ⟨g, hg, hgd⟩)
      · exact Or.inl hm
      · exact Or.inr ⟨g, hp.subset hg, hgd⟩
    · rintro (hm | ⟨g, hg, hgd⟩)
      · exact Or.inl hm
      · exact Or.inr ⟨g, hp.symm.subset hg, hgd⟩
  rw [hv]

/-- C3: `buildUsageAggregates` assigns descriptor and value IDs by walking
the lexicographically sorted descriptor names with one shared monotonically
increasing counter starting at 0, giving each descriptor the next integer
(as a string) and then each of its lexicographically sorted distinct values
the following integers (`descriptorSchedule`); consequently any two
permutations of the same findings list produce identical IDs for every
descriptor and every value. -/
theorem buildUsageAggregates_id_assignment (repoPath : String) :
    (∀ l d, descriptorIdOf (buildUsageAggregates repoPath l) d
        = (lookupKey (descriptorSchedule (aggPairs repoPath l) 0) d).map Prod.fst)
    ∧ (∀ l d v, valueIdOf (buildUsageAggregates repoPath l) d v
        = (lookupKey (descriptorSchedule (aggPairs repoPath l) 0) d).bind
            (fun pr => lookupKey pr.2 v))
    ∧ (∀ l1 l2, l1.Perm l2 → ∀ d v,
        descriptorIdOf (buildUsageAggregates repoPath l1) d
          = descriptorIdOf (buildUsageAggregates repoPath l2) d
        ∧ valueIdOf (buildUsageAggregates repoPath l1) d v
          = valueIdOf (buildUsageAggregates repoPath l2) d v) := by
  refine ⟨descriptorIdOf_buildUsageAggregates repoPath,
    valueIdOf_buildUsageAggregates repoPath, fun l1 l2 hp d v => ⟨?_, ?_⟩⟩
  · rw [descriptorIdOf_buildUsageAggregates, descriptorIdOf_buildUsageAggregates,
      aggPairs_perm_eq repoPath l1 l2 hp]
  · rw [valueIdOf_buildUsageAggregates, valueIdOf_buildUsageAggregates,
      aggPairs_perm_eq repoPath l1 l2 hp]

set_option maxHeartbeats 1000000 in
/-- Witness for C3: swapping two findings leaves every descriptor and value
ID unchanged. -/
theorem buildUsageAggregates_id_assignment_witness :
    ([{ path := "/p/a.css", descriptor := "margin", value := "0",
        containsToken := false, isIgnored := false, tokens := none },
      { path := "/p/a.css", descriptor := "color", value := "red",
        containsToken := false, isIgnored := false, tokens := none }] : List Finding).Perm
      [{ path := "/p/a.css", descriptor := "color", value := "red",
         containsToken := false, isIgnored := false, tokens := none },
       { path := "/p/a.css", descriptor := "margin", value := "0",
         containsToken := false, isIgnored := false, tokens := none }]
    ∧ descriptorIdOf (buildUsageAggregates "/p"
        [{ path := "/p/a.css", descriptor := "margin", value := "0",
           containsToken := false, isIgnored := false, tokens := none },
         { path := "/p/a.css", descriptor := "color", value := "red",
           containsToken := false, isIgnored := false, tokens := none }]) "color"
      = descriptorIdOf (buildUsageAggregates "/p"
          [{ path := "/p/a.css", descriptor := "color", value := "red",
             containsToken := false, isIgnored := false, tokens := none },
           { path := "/p/a.css", descriptor := "margin", value := "0",
             containsToken := false, isIgnored := false, tokens := none }]) "color"
    ∧ valueIdOf (buildUsageAggregates "/p"
        [{ path := "/p/a.css", descriptor := "margin", value := "0",
           containsToken := false, isIgnored := false, tokens := none },
         { path := "/p/a.css", descriptor := "color", value := "red",
           containsToken := false, isIgnored := false, tokens := none }]) "color" "red"
      = valueIdOf (buildUsageAggregates "/p"
          [{ path := "/p/a.css", descriptor := "color", value := "red",
             containsToken := false, isIgnored := false, tokens := none },
           { path := "/p/a.css", descriptor := "margin", value := "0",
             containsToken := false, isIgnored := false, tokens := none }]) "color" "red" :=
  ⟨List.Perm.swap
    ({ path := "/p/a.css", descriptor := "color", value := "red",
       containsToken := false, isIgnored := false, tokens := none } : Finding)
    ({ path := "/p/a.css", descriptor := "margin", value := "0",
       containsToken := false, isIgnored := false, tokens := none } : Finding) [],
   ((buildUsageAggregates_id_assignment "/p").2.2 _ _
     (List.Perm.swap
       ({ path := "/p/a.css", descriptor := "color", value := "red",
          containsToken := false, isIgnored := false, tokens := none } : Finding)
       ({ path := "/p/a.css", descriptor := "margin", value := "0",
          containsToken := false, isIgnored := false, tokens := none } : Finding) [])
     "color" "red").1,
   ((buildUsageAggregates_id_assignment "/p").2.2 _ _
     (List.Perm.swap
       ({ path := "/p/a.css", descriptor := "color", value := "red",
          containsToken := false, isIgnored := false, tokens := none } : Finding)
       ({ path := "/p/a.css", descriptor := "margin", value := "0",
          containsToken := false, isIgnored := false, tokens := none } : Finding) [])
     "color" "red").2⟩
